import Mathlib

/-!
Verification of the tweetscope reply/quote link-graph builder
(`latentscope/scripts/build_links_graph.py`).

The Python source is shallowly embedded below: pandas DataFrames become
lists of records, Python dicts become association lists, and the
memoized thread resolver's `while True` loop becomes a fuel-indexed
recursion whose fuel is proved sufficient.  Python `int` is modelled by
`Int` (`Nat` only where the source value is an index/length), strings by
`String`.  All definitions are executable.
-/

namespace BuildLinks

/-! ### Python string primitives -/

/-- Characters stripped by Python `str.strip()` (the `str.isspace` set). -/
def pyIsSpace (c : Char) : Bool :=
  let n := c.toNat
  (9 ≤ n && n ≤ 13) || (28 ≤ n && n ≤ 31) || n == 32 || n == 133 || n == 160 ||
    n == 0x1680 || (0x2000 ≤ n && n ≤ 0x200a) || n == 0x2028 || n == 0x2029 ||
    n == 0x202f || n == 0x205f || n == 0x3000

/-- Python `str.strip()`. -/
def pyStrip (s : String) : String :=
  ⟨(s.data.dropWhile pyIsSpace).reverse.dropWhile pyIsSpace |>.reverse⟩

/-- ASCII-level model of Python `str.lower()` (the source only lowercases
ASCII data: edge kinds, schemes, hosts handled by the claims). -/
def pyLowerChar (c : Char) : Char :=
  if 65 ≤ c.toNat ∧ c.toNat ≤ 90 then Char.ofNat (c.toNat + 32) else c

def pyLower (s : String) : String := ⟨s.data.map pyLowerChar⟩

/-- Python `str.isdigit()` restricted to ASCII digits (ids in this
pipeline are ASCII numeric strings). -/
def pyIsDigitStr (s : String) : Bool :=
  !s.data.isEmpty && s.data.all (fun c => 48 ≤ c.toNat && c.toNat ≤ 57)

def listStartsWith {α : Type} [DecidableEq α] : List α → List α → Bool
  | [], _ => true
  | _ :: _, [] => false
  | p :: ps, c :: cs => p = c && listStartsWith ps cs

/-- Python `s.endswith(suffix)`. -/
def pyEndsWith (s suffix : String) : Bool :=
  listStartsWith suffix.data.reverse s.data.reverse

/-- Python slicing `s[:-n]`. -/
def strDropRight (s : String) (n : Nat) : String :=
  ⟨s.data.take (s.data.length - n)⟩

def replaceAllGo (pat rep : List Char) : Nat → List Char → List Char
  | 0, l => l
  | _ + 1, [] => []
  | fuel + 1, c :: cs =>
    if !pat.isEmpty && listStartsWith pat (c :: cs) then
      rep ++ replaceAllGo pat rep fuel (cs.drop (pat.length - 1))
    else c :: replaceAllGo pat rep fuel cs

/-- Python `s.replace(pat, rep)`: every occurrence, scanning left to
right without overlap. -/
def pyReplace (s pat rep : String) : String :=
  ⟨replaceAllGo pat.data rep.data s.data.length s.data⟩

/-- `_as_text`: `None -> ""`, otherwise `str(value).strip()`.  Fields are
modelled at string granularity, so the `str()` coercion is the identity. -/
def asText (value : Option String) : String :=
  match value with
  | none => ""
  | some s => pyStrip s

/-- `_normalize_tweet_type` from the source. -/
def normalizeTweetType (value : Option String) : String :=
  let text := pyLower (asText value)
  if text = "" then "tweet" else text

/-- `_normalize_tweet_id` from the source: empty text becomes `None`; a
float-style `".0"` suffix is stripped when the remaining prefix is all
digits. -/
def normalizeTweetId (value : Option String) : Option String :=
  let text := asText value
  if text = "" then none
  else if pyEndsWith text ".0" && pyIsDigitStr (strDropRight text 2) then
    some (strDropRight text 2)
  else some text

/-! ### SHA-256 (`hashlib.sha256`), over `Nat` with explicit `% 2^32` -/

def w32 (n : Nat) : Nat := n % 4294967296

def rotr32 (n x : Nat) : Nat := w32 ((x >>> n) ||| (x <<< (32 - n)))

def shaS0 (x : Nat) : Nat := (rotr32 7 x) ^^^ (rotr32 18 x) ^^^ (x >>> 3)
def shaS1 (x : Nat) : Nat := (rotr32 17 x) ^^^ (rotr32 19 x) ^^^ (x >>> 10)
def shaB0 (x : Nat) : Nat := (rotr32 2 x) ^^^ (rotr32 13 x) ^^^ (rotr32 22 x)
def shaB1 (x : Nat) : Nat := (rotr32 6 x) ^^^ (rotr32 11 x) ^^^ (rotr32 25 x)

def shaK : List Nat :=
  [1116352408, 1899447441, 3049323471, 3921009573, 961987163,
   1508970993, 2453635748, 2870763221, 3624381080, 310598401,
   607225278, 1426881987, 1925078388, 2162078206, 2614888103,
   3248222580, 3835390401, 4022224774, 264347078, 604807628,
   770255983, 1249150122, 1555081692, 1996064986, 2554220882,
   2821834349, 2952996808, 3210313671, 3336571891, 3584528711,
   113926993, 338241895, 666307205, 773529912, 1294757372,
   1396182291, 1695183700, 1986661051, 2177026350, 2456956037,
   2730485921, 2820302411, 3259730800, 3345764771, 3516065817,
   3600352804, 4094571909, 275423344, 430227734, 506948616,
   659060556, 883997877, 958139571, 1322822218, 1537002063,
   1747873779, 1955562222, 2024104815, 2227730452, 2361852424,
   2428436474, 2756734187, 3204031479, 3329325298]

def shaH0 : List Nat :=
  [1779033703, 3144134277, 1013904242, 2773480762,
   1359893119, 2600822924, 528734635, 1541459225]

/-- Big-endian 32-bit words from a list of bytes (length a multiple of 4). -/
def bytesToWords : List Nat → List Nat
  | a :: b :: c :: d :: rest => (a * 16777216 + b * 65536 + c * 256 + d) :: bytesToWords rest
  | _ => []

/-- Message-schedule expansion: extend the 16 block words to 64. -/
def shaExpand (ws : List Nat) : Nat → List Nat
  | 0 => ws
  | n + 1 =>
    let ws' := shaExpand ws n
    let i := ws'.length
    let t := w32 (shaS1 (ws'.getD (i - 2) 0) + ws'.getD (i - 7) 0 +
                  shaS0 (ws'.getD (i - 15) 0) + ws'.getD (i - 16) 0)
    ws' ++ [t]

/-- One round of the SHA-256 compression function. -/
def shaRound (st : List Nat) (kw : Nat × Nat) : List Nat :=
  match st with
  | [a, b, c, d, e, f, g, h] =>
    let t1 := w32 (h + shaB1 e + ((e &&& f) ^^^ ((4294967295 - e) &&& g)) + kw.1 + kw.2)
    let t2 := w32 (shaB0 a + ((a &&& b) ^^^ (a &&& c) ^^^ (b &&& c)))
    [w32 (t1 + t2), a, b, c, w32 (d + t1), e, f, g]
  | other => other

/-- Process one 64-byte block. -/
def shaBlock (h : List Nat) (block : List Nat) : List Nat :=
  let ws := shaExpand (bytesToWords block) 48
  let st := (shaK.zip ws).foldl (fun acc kw => shaRound acc kw) h
  (h.zip st).map (fun p => w32 (p.1 + p.2))

/-- Split into 64-byte blocks; the fuel is the number of blocks (the
padded message length is always a positive multiple of 64). -/
def chunk64Go : Nat → List Nat → List (List Nat)
  | 0, _ => []
  | n + 1, bytes => bytes.take 64 :: chunk64Go n (bytes.drop 64)

def chunk64 (bytes : List Nat) : List (List Nat) :=
  chunk64Go ((bytes.length + 63) / 64) bytes

/-- SHA-256 padding: append `0x80`, zeros, and the 64-bit big-endian bit length. -/
def shaPad (msg : List Nat) : List Nat :=
  let len := msg.length
  let zeros := (64 - ((len + 9) % 64)) % 64
  let bitLen := len * 8
  msg ++ [128] ++ List.replicate zeros 0 ++
    [(bitLen >>> 56) % 256, (bitLen >>> 48) % 256, (bitLen >>> 40) % 256,
     (bitLen >>> 32) % 256, (bitLen >>> 24) % 256, (bitLen >>> 16) % 256,
     (bitLen >>> 8) % 256, bitLen % 256]

/-- SHA-256 digest (as a list of 32 bytes) of a byte list. -/
def sha256 (msg : List Nat) : List Nat :=
  let final := (chunk64 (shaPad msg)).foldl shaBlock shaH0
  final.flatMap (fun word =>
    [(word >>> 24) % 256, (word >>> 16) % 256, (word >>> 8) % 256, word % 256])

/-- UTF-8 encoding of one character (Python `str.encode()`). -/
def utf8Char (c : Char) : List Nat :=
  let n := c.toNat
  if n < 0x80 then [n]
  else if n < 0x800 then [0xc0 + n / 64, 0x80 + n % 64]
  else if n < 0x10000 then [0xe0 + n / 4096, 0x80 + (n / 64) % 64, 0x80 + n % 64]
  else [0xf0 + n / 262144, 0x80 + (n / 4096) % 64, 0x80 + (n / 64) % 64, 0x80 + n % 64]

def utf8Encode (s : String) : List Nat := s.data.flatMap utf8Char

def hexChar (n : Nat) : Char :=
  if n < 10 then Char.ofNat (48 + n) else Char.ofNat (87 + n)

def byteToHex (b : Nat) : List Char := [hexChar (b / 16), hexChar (b % 16)]

def hexdigest (bytes : List Nat) : String := ⟨bytes.flatMap byteToHex⟩

/-- Python string slicing `s[:n]` (character-level). -/
def strTake (s : String) (n : Nat) : String := ⟨s.data.take n⟩

/-- `_make_edge_id`: first 16 hex chars of the SHA-256 of
`"src|dst|kind|provenance"`. -/
def makeEdgeId (src dst kind provenance : String) : String :=
  let key := src ++ "|" ++ dst ++ "|" ++ kind ++ "|" ++ provenance
  strTake (hexdigest (sha256 (utf8Encode key))) 16

/-! ### Association lists (Python `dict`) -/

/-- Lookup in an association list (first match; dict keys are unique where
these lists are built). -/
def alookup {α β : Type} [DecidableEq α] : List (α × β) → α → Option β
  | [], _ => none
  | (k, v) :: rest, key => if key = k then some v else alookup rest key

/-- Dict assignment `m[k] = v`: overwrite the existing entry in place,
else append at the end. -/
def setk {α β : Type} [DecidableEq α] : List (α × β) → α → β → List (α × β)
  | [], k, v => [(k, v)]
  | (k', v') :: rest, k, v =>
    if k' = k then (k, v) :: rest else (k', v') :: setk rest k v

/-! ### `urllib.parse.urlsplit` / `urlunsplit`

Modelled after CPython's `urlsplit`: WHATWG stripping, scheme and netloc
extraction, fragment/query splitting, and the bracketed-host (IPv6)
validation that can raise `ValueError` (modelled as `none`).  The NFKC
check `_checknetloc` performs on non-ASCII netlocs is treated as passing;
everything else is modelled exactly. -/

structure SplitResult where
  scheme : String
  netloc : String
  path : String
  query : String
  fragment : String
deriving DecidableEq, Repr

def isSchemeChar (c : Char) : Bool :=
  (65 ≤ c.toNat && c.toNat ≤ 90) || (97 ≤ c.toNat && c.toNat ≤ 122) ||
    (48 ≤ c.toNat && c.toNat ≤ 57) || c == '+' || c == '-' || c == '.'

def isAsciiAlphaChar (c : Char) : Bool :=
  (65 ≤ c.toNat && c.toNat ≤ 90) || (97 ≤ c.toNat && c.toNat ≤ 122)

def isAsciiDigitChar (c : Char) : Bool := 48 ≤ c.toNat && c.toNat ≤ 57

def isHexCharCI (c : Char) : Bool :=
  isAsciiDigitChar c || (97 ≤ (pyLowerChar c).toNat && (pyLowerChar c).toNat ≤ 102)

/-- `ipaddress.IPv4Address` validity: four dot-separated decimal octets,
1-3 ASCII digits each, no leading zeros, value at most 255. -/
def isValidIPv4Octet (s : List Char) : Bool :=
  !s.isEmpty && s.length ≤ 3 && s.all isAsciiDigitChar &&
    (s.length == 1 || s.head? != some '0') &&
    (s.foldl (fun acc c => acc * 10 + (c.toNat - 48)) 0) ≤ 255

def splitOn (sep : Char) : List Char → List (List Char)
  | [] => [[]]
  | c :: rest =>
    let parts := splitOn sep rest
    if c = sep then [] :: parts
    else match parts with
      | [] => [[c]]
      | p :: ps => (c :: p) :: ps

def isValidIPv4 (s : List Char) : Bool :=
  let parts := splitOn '.' s
  parts.length == 4 && parts.all isValidIPv4Octet

/-- One IPv6 hextet: 1-4 hex digits. -/
def isValidHextet (s : List Char) : Bool :=
  !s.isEmpty && s.length ≤ 4 && s.all isHexCharCI

/-- `ipaddress.IPv6Address` validity (`_ip_int_from_string`), including the
optional `%scope` suffix and an embedded trailing IPv4 address. -/
def isValidIPv6 (host : List Char) : Bool :=
  let addrScope := splitOn '%' host
  match addrScope with
  | [addr] => isValidIPv6Body addr
  | [addr, scope] => !scope.isEmpty && isValidIPv6Body addr
  | _ => false
where
  isValidIPv6Body (addr : List Char) : Bool :=
    let parts0 := splitOn ':' addr
    if parts0.length < 3 then false
    else
      -- an embedded IPv4 tail counts as two hextets
      let lastHasDot := (parts0.getLast? ).elim false (fun l => l.contains '.')
      if lastHasDot && !isValidIPv4 ((parts0.getLast?).getD []) then false
      else
        let parts := if lastHasDot then parts0.dropLast ++ [['0'], ['0']] else parts0
        if parts.length > 9 then false
        else
          let n := parts.length
          let innerEmpties := ((List.range n).filter
            (fun i => 1 ≤ i && i + 1 < n && (parts.getD i [' ']).isEmpty))
          match innerEmpties with
          | [] =>
            n == 8 && parts.all isValidHextet
          | [skipIdx] =>
            let partsHi0 := skipIdx
            let partsLo0 := n - skipIdx - 1
            let leadEmpty := (parts.getD 0 [' ']).isEmpty
            let tailEmpty := (parts.getD (n - 1) [' ']).isEmpty
            (!leadEmpty || partsHi0 == 1) &&
            (!tailEmpty || partsLo0 == 1) &&
            (let partsHi := if leadEmpty then partsHi0 - 1 else partsHi0
             let partsLo := if tailEmpty then partsLo0 - 1 else partsLo0
             partsHi + partsLo < 8 &&
             ((List.range n).all (fun i =>
               i == skipIdx || (leadEmpty && i == 0) || (tailEmpty && i + 1 == n) ||
                 isValidHextet (parts.getD i []))))
          | _ => false

/-- `_check_bracketed_host`: IPvFuture literals (`v<hex>+.<anything>+`) or a
valid IPv6 address; anything else (including IPv4) raises. -/
def checkBracketedHost (host : List Char) : Bool :=
  match host with
  | 'v' :: rest => ipvFutureTail rest false
  | _ => isValidIPv6 host
where
  ipvFutureTail : List Char → Bool → Bool
    | [], _ => false
    | c :: r, seenHex =>
      if c = '.' then seenHex && !r.isEmpty
      else if isHexCharCI c then ipvFutureTail r true
      else false

/-- CPython `urlsplit`; `none` models a raised `ValueError`. -/
def pyUrlsplit (url : String) : Option SplitResult :=
  -- WHATWG sanitation: strip leading C0-control/space, remove tab/CR/LF
  let cs0 := url.data.dropWhile (fun c => c.toNat ≤ 32)
  let cs := cs0.filter (fun c => c ≠ '\t' && c ≠ '\r' && c ≠ '\n')
  -- scheme extraction
  let pre := cs.takeWhile (fun c => c ≠ ':')
  let hasColon := pre.length < cs.length
  let schemeOk := hasColon && !pre.isEmpty && (pre.headD ' ').toNat < 128 &&
    isAsciiAlphaChar (pre.headD ' ') && pre.tail.all isSchemeChar
  let scheme := if schemeOk then pyLower ⟨pre⟩ else ""
  let rest1 := if schemeOk then cs.drop (pre.length + 1) else cs
  -- netloc extraction
  let hasNetloc := rest1.take 2 = ['/', '/']
  let netlocChars :=
    if hasNetloc then (rest1.drop 2).takeWhile (fun c => c ≠ '/' && c ≠ '?' && c ≠ '#')
    else []
  let rest2 := if hasNetloc then rest1.drop (2 + netlocChars.length) else rest1
  let bracketBad :=
    (netlocChars.contains '[' && !netlocChars.contains ']') ||
    (netlocChars.contains ']' && !netlocChars.contains '[')
  let bracketHostBad :=
    netlocChars.contains '[' && netlocChars.contains ']' &&
      !checkBracketedHost
        (((netlocChars.dropWhile (fun c => c ≠ '[')).drop 1).takeWhile (fun c => c ≠ ']'))
  if bracketBad || bracketHostBad then none
  else
    -- fragment then query
    let beforeFrag := rest2.takeWhile (fun c => c ≠ '#')
    let fragment := if beforeFrag.length < rest2.length then rest2.drop (beforeFrag.length + 1) else []
    let path := beforeFrag.takeWhile (fun c => c ≠ '?')
    let query := if path.length < beforeFrag.length then beforeFrag.drop (path.length + 1) else []
    some { scheme := scheme, netloc := ⟨netlocChars⟩, path := ⟨path⟩,
           query := ⟨query⟩, fragment := ⟨fragment⟩ }

/-- `urllib.parse.uses_netloc`. -/
def usesNetloc : List String :=
  ["", "ftp", "http", "gopher", "nntp", "telnet", "imap", "wais", "file",
   "mms", "https", "shttp", "snews", "prospero", "rtsp", "rtsps", "rtspu",
   "rsync", "svn", "svn+ssh", "sftp", "nfs", "git", "git+ssh", "ws", "wss"]

/-- CPython `urlunsplit`. -/
def pyUrlunsplit (scheme netloc path query fragment : String) : String :=
  let url := path
  let url :=
    if netloc ≠ "" || (scheme ≠ "" && scheme ∈ usesNetloc && url.data.take 2 ≠ ['/', '/']) then
      (if url ≠ "" && url.data.take 1 ≠ ['/'] then "//" ++ netloc ++ "/" ++ url
       else "//" ++ netloc ++ url)
    else url
  let url := if scheme ≠ "" then scheme ++ ":" ++ url else url
  let url := if query ≠ "" then url ++ "?" ++ query else url
  if fragment ≠ "" then url ++ "#" ++ fragment else url

/-- `_normalize_url` from the source.  Note that the Python code uses
`host.replace("www.", "")`, which removes every occurrence of `"www."`
from the host, not just a leading one. -/
def pyNormalizeUrl (url : String) : String :=
  match pyUrlsplit url with
  | none => url
  | some split =>
    let scheme := pyLower (if split.scheme = "" then "https" else split.scheme)
    let host := pyReplace (pyLower split.netloc) "www." ""
    let path := split.path
    let path :=
      if path.data.length > 1 && pyEndsWith path "/" then ⟨path.data.dropLast⟩ else path
    pyUrlunsplit scheme host path "" ""

/-- Strip one leading `"www."` from a host (what the claim's words,
"host lower-cased with a leading `www.` stripped", prescribe). -/
def stripLeadingWww (host : String) : String :=
  if listStartsWith "www.".data host.data then ⟨host.data.drop 4⟩ else host

/-- The URL-normalization contract exactly as the claim states it:
lower-cased scheme defaulting to `https`, lower-cased host with a
leading `www.` stripped, one trailing slash removed unless the path is
`/`, query and fragment dropped, unparsable input returned unchanged. -/
def normalizeUrlClaim (url : String) : String :=
  match pyUrlsplit url with
  | none => url
  | some split =>
    let scheme := pyLower (if split.scheme = "" then "https" else split.scheme)
    let host := stripLeadingWww (pyLower split.netloc)
    let path :=
      if split.path ≠ "/" ∧ pyEndsWith split.path "/" then strDropRight split.path 1
      else split.path
    pyUrlunsplit scheme host path "" ""

/-- The amended contract: as `normalizeUrlClaim`, except that every
occurrence of the substring `"www."` is removed from the lower-cased
host (which is what `host.replace("www.", "")` does). -/
def normalizeUrlAmended (url : String) : String :=
  match pyUrlsplit url with
  | none => url
  | some split =>
    let scheme := pyLower (if split.scheme = "" then "https" else split.scheme)
    let host := pyReplace (pyLower split.netloc) "www." ""
    let path :=
      if split.path ≠ "/" ∧ pyEndsWith split.path "/" then strDropRight split.path 1
      else split.path
    pyUrlunsplit scheme host path "" ""

/-! ### `_extract_status_id` (the `STATUS_URL_RE` regex)

`re.search` with the pattern
`https?://(?:www\.)?(?:x\.com|twitter\.com)/(?:i/web/)?(?:[A-Za-z0-9_]+/)?status/(?P<tweet_id>\d+)`
under `re.IGNORECASE` (ASCII-level case folding modelled). -/

def isWordChar (c : Char) : Bool :=
  isAsciiAlphaChar c || isAsciiDigitChar c || c == '_'

/-- Case-insensitively consume a literal (given lower-cased). -/
def eatCI : List Char → List Char → Option (List Char)
  | [], l => some l
  | _ :: _, [] => none
  | p :: ps, c :: cs => if pyLowerChar c = p then eatCI ps cs else none

def statusTail (l : List Char) : Option String :=
  match eatCI "status/".data l with
  | none => none
  | some rest =>
    let digits := rest.takeWhile isAsciiDigitChar
    if digits.isEmpty then none else some ⟨digits⟩

/-- The optional `(?:[A-Za-z0-9_]+/)?` segment followed by
`status/<digits>`. The optional group prefers matching, mirroring regex
backtracking (a shorter `[A-Za-z0-9_]+` run is never viable because the
character after it would be a word character, not `/`). -/
def statusAfterHandle (l2 : List Char) : Option String :=
  (let run := l2.takeWhile isWordChar
   if !run.isEmpty && l2.getD run.length ' ' = '/' then
     statusTail (l2.drop (run.length + 1))
   else none) <|> statusTail l2

/-- After the host and `/`: optional `i/web/`, optional `<word>+/`,
then `status/<digits>`. -/
def statusPath (l : List Char) : Option String :=
  (match eatCI "i/web/".data l with
   | some rest => statusAfterHandle rest
   | none => none) <|> statusAfterHandle l

def statusAfterHost (r5 : List Char) : Option String :=
  match eatCI "/".data r5 with
  | none => none
  | some r6 => statusPath r6

def statusAfterWww (r4 : List Char) : Option String :=
  (match eatCI "x.com".data r4 with
   | some r5 => statusAfterHost r5
   | none => none) <|>
  (match eatCI "twitter.com".data r4 with
   | some r5 => statusAfterHost r5
   | none => none)

def statusAfterScheme (r2 : List Char) : Option String :=
  match eatCI "://".data r2 with
  | none => none
  | some r3 =>
    (match eatCI "www.".data r3 with
     | some r4 => statusAfterWww r4
     | none => none) <|> statusAfterWww r3

def statusMatchAt (l : List Char) : Option String :=
  match eatCI "http".data l with
  | none => none
  | some r1 =>
    (match eatCI "s".data r1 with
     | some r2 => statusAfterScheme r2
     | none => none) <|> statusAfterScheme r1

def statusSearch : List Char → Option String
  | [] => none
  | c :: rest => statusMatchAt (c :: rest) <|> statusSearch rest

/-- `_extract_status_id`. -/
def extractStatusId (url : String) : Option String := statusSearch url.data

/-! ### `_parse_urls`

The `urls_json` field is a string whose JSON parse (`json.loads`) outcome
is part of the input data: `UrlsValue.strVal raw parsed` carries the raw
string together with the parsed value (`none` when `json.loads` raises
`JSONDecodeError` on the stripped string). -/

inductive PyJson where
  | null : PyJson
  | boolean : Bool → PyJson
  | num : Int → PyJson
  | str : String → PyJson
  | arr : List PyJson → PyJson
  | obj : List (String × PyJson) → PyJson

inductive UrlsValue where
  | absent : UrlsValue
  | strVal : String → Option PyJson → UrlsValue

def pyTruthy : PyJson → Bool
  | .null => false
  | .boolean b => b
  | .num n => n ≠ 0
  | .str s => s ≠ ""
  | .arr l => !l.isEmpty
  | .obj l => !l.isEmpty

def pyQuote (s : String) : String := "'" ++ s ++ "'"

mutual
/-- Python `str()` of a JSON-decoded value (`repr` for containers). -/
def pyStrOfJson : PyJson → String
  | .null => "None"
  | .boolean true => "True"
  | .boolean false => "False"
  | .num n => toString n
  | .str s => s
  | .arr l => "[" ++ pyReprList l ++ "]"
  | .obj l => "\x7b" ++ pyReprObj l ++ "\x7d"

/-- Python `repr()` as used for container elements. -/
def pyReprOfJson : PyJson → String
  | .null => "None"
  | .boolean true => "True"
  | .boolean false => "False"
  | .num n => toString n
  | .str s => pyQuote s
  | .arr l => "[" ++ pyReprList l ++ "]"
  | .obj l => "\x7b" ++ pyReprObj l ++ "\x7d"

def pyReprList : List PyJson → String
  | [] => ""
  | [j] => pyReprOfJson j
  | j :: rest => pyReprOfJson j ++ ", " ++ pyReprList rest

def pyReprObj : List (String × PyJson) → String
  | [] => ""
  | [(k, v)] => pyQuote k ++ ": " ++ pyReprOfJson v
  | (k, v) :: rest => pyQuote k ++ ": " ++ pyReprOfJson v ++ ", " ++ pyReprObj rest
end

def jsonObjGet (fields : List (String × PyJson)) (k : String) : Option PyJson :=
  alookup fields k

/-- `item.get("expanded_url") or item.get("expandedUrl") or item.get("url")`. -/
def dictUrlCandidate (fields : List (String × PyJson)) : Option PyJson :=
  let pick := fun (o : Option PyJson) =>
    match o with
    | some v => if pyTruthy v then some v else none
    | none => none
  (pick (jsonObjGet fields "expanded_url")) <|>
  (pick (jsonObjGet fields "expandedUrl")) <|>
  (pick (jsonObjGet fields "url"))

def collectUrlItems (items : List PyJson) : List String :=
  items.foldr (fun item acc =>
    match item with
    | .str s =>
      let u := pyStrip s
      if u ≠ "" then u :: acc else acc
    | .obj fields =>
      match dictUrlCandidate fields with
      | some v => pyStrip (pyStrOfJson v) :: acc
      | none => acc
    | _ => acc) []

/-- `_parse_urls` from the source. -/
def parseUrls : UrlsValue → List String
  | .absent => []
  | .strVal raw parsed =>
    let stripped := pyStrip raw
    if stripped = "" then []
    else
      match parsed with
      | none => [stripped]
      | some j =>
        let j := match j with
          | .obj fields => PyJson.arr [.obj fields]
          | other => other
        match j with
        | .arr items => collectUrlItems items
        | _ => []

/-! ### Edge records and `_canonicalize_edges_df`

A pandas DataFrame row becomes a record with `Option` fields (a missing
column is the row-wise constant `none`, which the source's
column-defaulting makes equivalent). -/

/-- A raw (pre-canonicalization) edge row, including the legacy links-v1
`edge_type` column. -/
structure RawEdge where
  edge_id : Option String
  edge_kind : Option String
  edge_type : Option String
  src_tweet_id : Option String
  dst_tweet_id : Option String
  src_ls_index : Option Int
  dst_ls_index : Option Int
  internal_target : Option Bool
  provenance : Option String
  source_url : Option String
deriving DecidableEq, Repr

/-- A canonical edge row (the `EDGE_COLUMNS` schema after
`_canonicalize_edges_df`). -/
structure Edge where
  edge_id : String
  edge_kind : String
  src_tweet_id : String
  dst_tweet_id : String
  src_ls_index : Option Int
  dst_ls_index : Option Int
  internal_target : Bool
  provenance : String
  source_url : Option String
deriving DecidableEq, Repr

def edgeToRaw (e : Edge) : RawEdge :=
  { edge_id := some e.edge_id, edge_kind := some e.edge_kind, edge_type := none,
    src_tweet_id := some e.src_tweet_id, dst_tweet_id := some e.dst_tweet_id,
    src_ls_index := e.src_ls_index, dst_ls_index := e.dst_ls_index,
    internal_target := some e.internal_target, provenance := e.provenance,
    source_url := e.source_url }

/-- The row-wise part of `_canonicalize_edges_df` (every step of the
source but the final `drop_duplicates` acts per row): legacy `edge_type`
migration into blank `edge_kind`, kind lower-casing and filtering, id
normalization and null-row dropping, `internal_target`/`provenance`
defaulting, and `edge_id` backfill. -/
def rowCanon (e : RawEdge) : Option Edge :=
  let kindMigrated :=
    if asText e.edge_kind = "" then some (pyLower (asText e.edge_type))
    else e.edge_kind
  let kind := pyLower (asText kindMigrated)
  if kind = "reply" ∨ kind = "quote" then
    match normalizeTweetId e.src_tweet_id, normalizeTweetId e.dst_tweet_id with
    | some src, some dst =>
      let internal := e.internal_target.getD false
      let prov := e.provenance.getD "url_extract"
      let eid :=
        match e.edge_id with
        | none => makeEdgeId src dst kind prov
        | some s => if pyStrip s = "" then makeEdgeId src dst kind prov else s
      some { edge_id := eid, edge_kind := kind, src_tweet_id := src,
             dst_tweet_id := dst, src_ls_index := e.src_ls_index,
             dst_ls_index := e.dst_ls_index, internal_target := internal,
             provenance := prov, source_url := e.source_url }
    | _, _ => none
  else none

def edgeKey (e : Edge) : String × String × String :=
  (e.edge_kind, e.src_tweet_id, e.dst_tweet_id)

/-- `drop_duplicates(subset=["edge_kind","src_tweet_id","dst_tweet_id"],
keep="last")`: a row survives iff no later row shares its key; kept rows
stay in order. -/
def dedupKeepLast : List Edge → List Edge
  | [] => []
  | e :: rest =>
    if rest.any (fun e2 => edgeKey e2 = edgeKey e) then dedupKeepLast rest
    else e :: dedupKeepLast rest

/-- `_canonicalize_edges_df` (the `df is None or df.empty` early exit
returns the empty table, which coincides with the general path on `[]`). -/
def canonicalizeEdges (raws : List RawEdge) : List Edge :=
  dedupKeepLast (raws.filterMap rowCanon)

/-! ### Source rows and `_build_edges_for_sources` -/

/-- An input-table row after `_ensure_ls_index` (what `build_links_graph`
reads from `input.parquet`); `Option` fields model nullable/missing
columns, matching the source's column-defaulting. -/
structure InputRow where
  id : Option String
  ls_index : Int
  in_reply_to_status_id : Option String
  quoted_status_id : Option String
  urls_json : UrlsValue
  tweet_type : Option String

/-- A prepared source row (after id normalization and tweet-type
filtering in `build_links_graph` lines 557-562). -/
structure PostRow where
  id : String
  ls_index : Int
  in_reply_to_status_id : Option String
  quoted_status_id : Option String
  urls_json : UrlsValue

def sourceTweetTypes : List String := ["tweet", "note_tweet"]

/-- Lines 557-562 of the source: normalize ids and drop nulls, normalize
tweet types, keep only source tweet types and non-empty ids. -/
def prepareSourceRows (rows : List InputRow) : List PostRow :=
  ((rows.filterMap fun r =>
      match normalizeTweetId r.id with
      | none => none
      | some nid =>
        some (nid, normalizeTweetType r.tweet_type, r))
    |>.filter (fun p => p.2.1 ∈ sourceTweetTypes)
    |>.filter (fun p => p.1.data.length > 0)).map fun p =>
      { id := p.1, ls_index := p.2.2.ls_index,
        in_reply_to_status_id := p.2.2.in_reply_to_status_id,
        quoted_status_id := p.2.2.quoted_status_id,
        urls_json := p.2.2.urls_json }

/-- `_build_tweet_lookup`: first occurrence of an id wins. -/
def buildTweetLookup (rows : List PostRow) : List (String × Int) :=
  rows.foldl (fun m r =>
    if (alookup m r.id).isSome then m else m ++ [(r.id, r.ls_index)]) []

/-- The `seen_edges` set paired with accumulated edge records. -/
structure ExtractAcc where
  seen : List (String × String × String)
  records : List RawEdge

def mkExtractedEdge (kind src dst : String) (srcLs : Int)
    (dstLs : Option Int) (prov : String) (sourceUrl : Option String) : RawEdge :=
  { edge_id := some (makeEdgeId src dst kind prov), edge_kind := some kind,
    edge_type := none, src_tweet_id := some src, dst_tweet_id := some dst,
    src_ls_index := some srcLs, dst_ls_index := dstLs,
    internal_target := some dstLs.isSome, provenance := some prov,
    source_url := sourceUrl }

/-- Lines 309-328 of the source: the candidate reply edge (note: **no**
self-reference check on the reply dimension). -/
def replyStep (lookup : List (String × Int)) (src : String) (srcLs : Int)
    (reply : Option String) (acc : ExtractAcc) : ExtractAcc :=
  match normalizeTweetId reply with
  | none => acc
  | some dst =>
    let key := ("reply", src, dst)
    if key ∈ acc.seen then acc
    else
      { seen := acc.seen ++ [key],
        records := acc.records ++
          [mkExtractedEdge "reply" src dst srcLs (alookup lookup dst) "native_field" none] }

/-- Lines 330-350: the native-field quote edge, suppressed when the
quoted id equals the post's own id. -/
def quoteNativeStep (lookup : List (String × Int)) (src : String) (srcLs : Int)
    (quoted : Option String) (acc : ExtractAcc) : ExtractAcc :=
  match normalizeTweetId quoted with
  | none => acc
  | some dst =>
    if dst = src then acc
    else
      let key := ("quote", src, dst)
      if key ∈ acc.seen then acc
      else
        { seen := acc.seen ++ [key],
          records := acc.records ++
            [mkExtractedEdge "quote" src dst srcLs (alookup lookup dst) "native_field" none] }

/-- Lines 352-376: one URL of the `urls_json` loop — normalize the URL,
extract a status id, and emit a quote edge unless it is a self-reference
or a duplicate. -/
def urlQuoteStep (lookup : List (String × Int)) (src : String) (srcLs : Int)
    (acc : ExtractAcc) (rawUrl : String) : ExtractAcc :=
  let normalizedUrl := pyNormalizeUrl rawUrl
  match extractStatusId normalizedUrl with
  | none => acc
  | some dst =>
    if dst = src then acc
    else
      let key := ("quote", src, dst)
      if key ∈ acc.seen then acc
      else
        { seen := acc.seen ++ [key],
          records := acc.records ++
            [mkExtractedEdge "quote" src dst srcLs (alookup lookup dst) "url_extract"
              (some normalizedUrl)] }

/-- The per-row body of the extraction loop in `_build_edges_for_sources`:
one candidate reply edge, one native-field quote edge, and URL-extracted
quote edges, deduplicated across the whole loop by `(kind, src, dst)`. -/
def extractRowEdges (lookup : List (String × Int)) (acc : ExtractAcc)
    (r : PostRow) : ExtractAcc :=
  let acc := replyStep lookup r.id r.ls_index r.in_reply_to_status_id acc
  let acc := quoteNativeStep lookup r.id r.ls_index r.quoted_status_id acc
  (parseUrls r.urls_json).foldl (urlQuoteStep lookup r.id r.ls_index) acc

/-- `_build_edges_for_sources`. -/
def buildEdgesForSources (rows : List PostRow) (lookup : List (String × Int)) :
    List Edge :=
  canonicalizeEdges ((rows.foldl (extractRowEdges lookup)
    { seen := [], records := [] }).records)

/-- `_refresh_edge_targets` (the empty-table early exit coincides with
mapping over `[]`). -/
def refreshEdgeTargets (edges : List Edge) (lookup : List (String × Int)) :
    List Edge :=
  edges.map fun e =>
    { e with src_ls_index := alookup lookup e.src_tweet_id,
             dst_ls_index := alookup lookup e.dst_tweet_id,
             internal_target := (alookup lookup e.dst_tweet_id).isSome }

/-! ### `_compute_thread_metadata`

The two dicts `root_cache` / `depth_cache` are always written together,
so they are modelled as one map to `(root, depth)` pairs.  The
`while True` walk becomes a fuel-indexed recursion; `none` marks fuel
exhaustion, proved unreachable for the fuel the wrapper supplies. -/

/-- `parent_map.get(current)` followed by the `if not parent:` truthiness
test: an empty-string parent counts as no parent. -/
def pEff (pm : List (String × String)) (x : String) : Option String :=
  match alookup pm x with
  | none => none
  | some p => if p = "" then none else some p

/-- The upward walk of `_resolve` (lines 167-195): returns the discovered
`(root_id, root_depth)` and the visited chain to backfill. -/
def resolveLoop (pm : List (String × String)) (corpus : List String)
    (cache : List (String × (String × Int))) :
    Nat → List String → String → Option (String × Int × List String)
  | 0, _, _ => none
  | fuel + 1, visited, current =>
    match alookup cache current with
    | some (cachedRoot, cachedDepth) => some (cachedRoot, cachedDepth + 1, visited)
    | none =>
      if current ∈ visited then
        -- cycle fallback: collapse to the current tweet
        some (current, 0, visited)
      else
        let visited := visited ++ [current]
        match pEff pm current with
        | none => some (current, 0, visited)
        | some parent =>
          if parent ∈ corpus then resolveLoop pm corpus cache fuel visited parent
          else some (parent, 1, visited)

/-- Lines 197-203: backfill the visited chain with descending depths. -/
def backfill (cache : List (String × (String × Int))) (root : String)
    (rootDepth : Int) (visited : List String) :
    List (String × (String × Int)) :=
  (visited.reverse.foldl (fun st node =>
    (setk st.1 node (root, st.2), st.2 + 1)) (cache, rootDepth)).1

/-- `_resolve`: cache hit, walk, backfill, read the answer back. -/
def resolveOne (pm : List (String × String)) (corpus : List String)
    (cache : List (String × (String × Int))) (tweetId : String) :
    Option ((String × Int) × List (String × (String × Int))) :=
  match alookup cache tweetId with
  | some rd => some (rd, cache)
  | none =>
    match resolveLoop pm corpus cache (corpus.length + 2) [] tweetId with
    | none => none
    | some (root, rootDepth, visited) =>
      let cache := backfill cache root rootDepth visited
      match alookup cache tweetId with
      | some rd => some (rd, cache)
      | none => none

/-- The `for tid in tweet_ids: _resolve(tid)` loop, collecting
`(tid, (thread_root, thread_depth))` in iteration order. -/
def resolveAllGo (pm : List (String × String)) (corpus : List String)
    (cache : List (String × (String × Int))) :
    List String → Option (List (String × (String × Int)))
  | [] => some []
  | tid :: rest =>
    match resolveOne pm corpus cache tid with
    | none => none
    | some (rd, cache') =>
      match resolveAllGo pm corpus cache' rest with
      | none => none
      | some out => some ((tid, rd) :: out)

/-- `_compute_thread_metadata` without the size maps: the per-tweet
`(thread_root, thread_depth)` assignment. -/
def computeThreadMetadata (corpus : List String) (pm : List (String × String)) :
    Option (List (String × (String × Int))) :=
  resolveAllGo pm corpus [] corpus

/-- `thread_size_map[root]`: number of corpus posts resolving to `root`. -/
def threadSizeOfRoot (results : List (String × (String × Int))) (root : String) : Int :=
  ((results.filter (fun p => p.2.1 = root)).length : Int)

/-- All depths recorded in a resolver cache are non-negative. -/
def CacheNonneg (cache : List (String × (String × Int))) : Prop :=
  ∀ k r d, alookup cache k = some (r, d) → 0 ≤ d

/-- The straightforward (non-memoized) reading of thread resolution: walk
to the parent while it is in-corpus, stopping at a missing parent
(depth 0, self root) or an out-of-corpus parent (depth 1, external
root). Fuel-indexed; on reply chains that cycle within the corpus it
returns `none` at every fuel. Used to state acyclicity and to
characterize what the memoized resolver computes. -/
def specResolve (corpus : List String) (pm : List (String × String)) :
    Nat → String → Option (String × Int)
  | 0, _ => none
  | fuel + 1, x =>
    match pEff pm x with
    | none => some (x, 0)
    | some p =>
      if p ∈ corpus then
        (specResolve corpus pm fuel p).map (fun rd => (rd.1, rd.2 + 1))
      else some (p, 1)

/-- `x` resolves (at some fuel) to root `r` at depth `d`. -/
def SpecRes (corpus : List String) (pm : List (String × String))
    (x r : String) (d : Int) : Prop :=
  ∃ fuel, specResolve corpus pm fuel x = some (r, d)

/-- Every cache entry agrees with the non-memoized resolution. -/
def CacheOK (corpus : List String) (pm : List (String × String))
    (cache : List (String × (String × Int))) : Prop :=
  ∀ k r d, alookup cache k = some (r, d) → SpecRes corpus pm k r d

/-- The reply-parent chains of every in-corpus post terminate (no cycle
reachable from the corpus); `corpus.length + 1` fuel always suffices for
a terminating chain, so this is decidable. -/
def AcyclicParents (corpus : List String) (pm : List (String × String)) : Prop :=
  ∀ x ∈ corpus, (specResolve corpus pm (corpus.length + 1) x).isSome

/-! ### `_build_node_stats_df` -/

structure NodeRow where
  tweet_id : String
  ls_index : Int
  reply_out_count : Int
  reply_in_count : Int
  quote_out_count : Int
  quote_in_count : Int
  thread_root_id : String
  thread_depth : Int
  thread_size : Int
  reply_child_count : Int
deriving DecidableEq, Repr

/-- The count dicts and parent map accumulated over the edges table. -/
structure StatsAcc where
  replyOut : List (String × Int)
  replyIn : List (String × Int)
  quoteOut : List (String × Int)
  quoteIn : List (String × Int)
  childCount : List (String × Int)
  parentMap : List (String × String)

def bump (m : List (String × Int)) (k : String) : List (String × Int) :=
  setk m k ((alookup m k).getD 0 + 1)

/-- The edge loop of `_build_node_stats_df` (lines 410-422). -/
def statsStep (lookup : List (String × Int)) (acc : StatsAcc) (e : Edge) : StatsAcc :=
  if e.edge_kind = "reply" then
    let acc := { acc with replyOut := bump acc.replyOut e.src_tweet_id }
    let acc :=
      if (alookup lookup e.dst_tweet_id).isSome then
        { acc with replyIn := bump acc.replyIn e.dst_tweet_id,
                   childCount := bump acc.childCount e.dst_tweet_id }
      else acc
    if (alookup acc.parentMap e.src_tweet_id).isSome then acc
    else { acc with parentMap := acc.parentMap ++ [(e.src_tweet_id, e.dst_tweet_id)] }
  else if e.edge_kind = "quote" then
    let acc := { acc with quoteOut := bump acc.quoteOut e.src_tweet_id }
    if (alookup lookup e.dst_tweet_id).isSome then
      { acc with quoteIn := bump acc.quoteIn e.dst_tweet_id }
    else acc
  else acc

def emptyStatsAcc : StatsAcc :=
  { replyOut := [], replyIn := [], quoteOut := [], quoteIn := [],
    childCount := [], parentMap := [] }

/-- One output row of `_build_node_stats_df` (lines 431-445 of the source;
the `.get(...)` defaults mirror the dict reads). -/
def nodeRowOf (acc : StatsAcc) (results : List (String × (String × Int)))
    (p : String × Int) : NodeRow :=
  let tid := p.1
  let rd := alookup results tid
  { tweet_id := tid, ls_index := p.2,
    reply_out_count := (alookup acc.replyOut tid).getD 0,
    reply_in_count := (alookup acc.replyIn tid).getD 0,
    quote_out_count := (alookup acc.quoteOut tid).getD 0,
    quote_in_count := (alookup acc.quoteIn tid).getD 0,
    thread_root_id := (rd.map (fun q => q.1)).getD tid,
    thread_depth := (rd.map (fun q => q.2)).getD 0,
    thread_size := (rd.map (fun q => threadSizeOfRoot results q.1)).getD 1,
    reply_child_count := (alookup acc.childCount tid).getD 0 }

/-- `_build_node_stats_df`: aggregate counts, resolve thread metadata over
the corpus id set (iterated in lookup insertion order), and emit one row
per corpus post. -/
def computeNodeStats (edges : List Edge) (lookup : List (String × Int)) :
    Option (List NodeRow) :=
  let acc := edges.foldl (statsStep lookup) emptyStatsAcc
  match computeThreadMetadata (lookup.map (fun p => p.1)) acc.parentMap with
  | none => none
  | some results => some (lookup.map (nodeRowOf acc results))

/-! ### `build_links_graph` (the pure core, after artifact loading) -/

structure BuildResult where
  edges : List Edge
  nodeStats : List NodeRow
  incremental_requested : Bool
  incremental : Bool
  fallbackWarning : Bool
  changed_tweet_ids_count : Int
deriving Repr

/-- The edges-table selection of `build_links_graph` (lines 583-619):
either the incremental-merge path (with its canonicalization safety
valve) or a full extraction.  Returns `(edges, incremental_used,
fallback_warning_printed)`. -/
def selectEdges (sourceRows : List PostRow) (lookup : List (String × Int))
    (changedNorm : List String) (incrementalRequested : Bool)
    (priorEdges : Option (List RawEdge)) : List Edge × Bool × Bool :=
  match priorEdges with
  | some raw =>
    if incrementalRequested then
      let existing0 := canonicalizeEdges raw
      if !raw.isEmpty && existing0.isEmpty then
        -- safety valve: warn and fall back to a full rebuild
        (buildEdgesForSources sourceRows lookup, false, true)
      else
        let existing := existing0.filter
          (fun e => (alookup lookup e.src_tweet_id).isSome)
        let impactedSources := changedNorm.filter
          (fun t => (alookup lookup t).isSome)
        let impactedFromTargets := (existing.filter
          (fun e => e.dst_tweet_id ∈ changedNorm)).map (fun e => e.src_tweet_id)
        let impacted := impactedSources ++ impactedFromTargets
        if !impacted.isEmpty then
          let impactedRows := sourceRows.filter (fun r => r.id ∈ impacted)
          let recomputed := buildEdgesForSources impactedRows lookup
          let preserved := existing.filter (fun e => e.src_tweet_id ∉ impacted)
          (canonicalizeEdges ((preserved ++ recomputed).map edgeToRaw), true, false)
        else (existing, true, false)
    else (buildEdgesForSources sourceRows lookup, false, false)
  | none => (buildEdgesForSources sourceRows lookup, false, false)

/-- Lines 621-622 of the source: refresh row indices and
`internal_target` against the current corpus, then drop edges whose
source is no longer in-corpus. -/
def finalizeEdges (edges0 : List Edge) (lookup : List (String × Int)) : List Edge :=
  (refreshEdgeTargets edges0 lookup).filter
    (fun e => (alookup lookup e.src_tweet_id).isSome)

/-- The core of `build_links_graph` (lines 557-623), starting from the
loaded, `ls_index`-equipped, scope-filtered input table.  `priorEdges`
is the content of a pre-existing `links/edges.parquet` (`none` when the
file is absent); `scopeRestricted` is `bool(scope_id)`.  The result
carries the final edges and node-stats tables and the flags the source
writes to `meta.json`, plus whether the incremental-merge safety warning
was printed. -/
def buildLinksCore (rows : List InputRow) (scopeRestricted : Bool)
    (incremental : Bool) (changedTweetIds : List (Option String))
    (priorEdges : Option (List RawEdge)) : Option BuildResult :=
  let sourceRows := prepareSourceRows rows
  let lookup := buildTweetLookup sourceRows
  let changedNorm := (changedTweetIds.filterMap normalizeTweetId).dedup
  let incrementalRequested :=
    incremental && !changedNorm.isEmpty && !scopeRestricted
  let step := selectEdges sourceRows lookup changedNorm incrementalRequested priorEdges
  let edges := finalizeEdges step.1 lookup
  match computeNodeStats edges lookup with
  | none => none
  | some stats =>
    some { edges := edges, nodeStats := stats,
           incremental_requested := incrementalRequested,
           incremental := step.2.1,
           fallbackWarning := step.2.2,
           changed_tweet_ids_count := (changedNorm.length : Int) }

/-- Every record `_build_edges_for_sources` accumulates is an extracted
edge whose kind is a literal and whose endpoint ids are fixed points of
`_normalize_tweet_id`. -/
def GoodRecord (rec : RawEdge) : Prop :=
  ∃ kind src dst srcLs dstLs prov url,
    rec = mkExtractedEdge kind src dst srcLs dstLs prov url ∧
    (kind = "reply" ∨ kind = "quote") ∧
    normalizeTweetId (some src) = some src ∧
    normalizeTweetId (some dst) = some dst

/-! ### Concrete scenario data (used by witnesses and Scenario C) -/

def mkPlainRow (id : String) (ls : Int) (reply : Option String) : InputRow :=
  { id := some id, ls_index := ls, in_reply_to_status_id := reply,
    quoted_status_id := none, urls_json := UrlsValue.absent, tweet_type := none }

/-- Scenario A's linear thread: `1`, `2` replies to `1`, `3` replies to `2`. -/
def chainRows : List InputRow :=
  [mkPlainRow "1" 0 none, mkPlainRow "2" 1 (some "1"), mkPlainRow "3" 2 (some "2")]

/-- Scenario C, before the new reply edge: `3` has no parent yet. -/
def scenCRows0 : List InputRow :=
  [mkPlainRow "1" 0 none, mkPlainRow "2" 1 (some "1"), mkPlainRow "3" 2 none]

/-- Scenario C, after the source gains the reply edge `3 → 2`. -/
def scenCRows1 : List InputRow := chainRows

/-- The prior `links/edges.parquet` content for Scenario C: the edges a
full rebuild on the pre-change data wrote. -/
def scenCPrior : List RawEdge :=
  ((buildLinksCore scenCRows0 false false [] none).map
    (fun r => r.edges.map edgeToRaw)).getD []

/-- Two candidate edge rows with identical `(kind, src, dst)` but
different raw `edge_id` values (witness data for the dedup claim). -/
def dupRawA : RawEdge where
  edge_id := some "aaaa0000aaaa0000"
  edge_kind := some "reply"
  edge_type := none
  src_tweet_id := some "1"
  dst_tweet_id := some "2"
  src_ls_index := some 0
  dst_ls_index := some 1
  internal_target := some true
  provenance := some "native_field"
  source_url := none

def dupRawB : RawEdge where
  edge_id := some "bbbb1111bbbb1111"
  edge_kind := some "reply"
  edge_type := none
  src_tweet_id := some "1"
  dst_tweet_id := some "2"
  src_ls_index := some 0
  dst_ls_index := some 1
  internal_target := some true
  provenance := some "url_extract"
  source_url := none

/-- The canonical rows `dupRawA` / `dupRawB` map to. -/
def dupEdgeA : Edge where
  edge_id := "aaaa0000aaaa0000"
  edge_kind := "reply"
  src_tweet_id := "1"
  dst_tweet_id := "2"
  src_ls_index := some 0
  dst_ls_index := some 1
  internal_target := true
  provenance := "native_field"
  source_url := none

def dupEdgeB : Edge where
  edge_id := "bbbb1111bbbb1111"
  edge_kind := "reply"
  src_tweet_id := "1"
  dst_tweet_id := "2"
  src_ls_index := some 0
  dst_ls_index := some 1
  internal_target := true
  provenance := "url_extract"
  source_url := none

/-- A post that references itself on every dimension: its reply target,
its native quoted id, and a status URL all carry its own id. -/
def selfLoopRow : PostRow where
  id := "7"
  ls_index := 0
  in_reply_to_status_id := some "7"
  quoted_status_id := some "7"
  urls_json := UrlsValue.strVal "[\"https://x.com/a/status/7\"]"
    (some (PyJson.arr [PyJson.str "https://x.com/a/status/7"]))

/-- A stale artifact row whose kind survives no canonicalization. -/
def junkRawEdge : RawEdge where
  edge_id := none
  edge_kind := some "banana"
  edge_type := none
  src_tweet_id := some "2"
  dst_tweet_id := some "1"
  src_ls_index := none
  dst_ls_index := none
  internal_target := none
  provenance := none
  source_url := none

/-! ## Lemmas: association lists -/

theorem alookup_append {α β : Type} [DecidableEq α] (l1 l2 : List (α × β)) (k : α) :
    alookup (l1 ++ l2) k =
      match alookup l1 k with
      | some v => some v
      | none => alookup l2 k := by
  induction l1 with
  | nil => simp [alookup]
  | cons p rest ih =>
    obtain ⟨k', v'⟩ := p
    by_cases h : k = k' <;> simp [alookup, h, ih]

theorem alookup_eq_none_of_not_mem {α β : Type} [DecidableEq α]
    (l : List (α × β)) (k : α) (h : k ∉ l.map Prod.fst) : alookup l k = none := by
  induction l with
  | nil => rfl
  | cons p rest ih =>
    simp only [List.map_cons, List.mem_cons] at h
    push_neg at h
    simp [alookup, h.1, ih h.2]

theorem alookup_isSome_iff_mem {α β : Type} [DecidableEq α]
    (l : List (α × β)) (k : α) : (alookup l k).isSome ↔ k ∈ l.map Prod.fst := by
  induction l with
  | nil => simp [alookup]
  | cons p rest ih =>
    by_cases h : k = p.1 <;> simp [alookup, h, ih]

theorem alookup_setk_self {α β : Type} [DecidableEq α]
    (m : List (α × β)) (k : α) (v : β) : alookup (setk m k v) k = some v := by
  induction m with
  | nil => simp [setk, alookup]
  | cons p rest ih =>
    obtain ⟨k', v'⟩ := p
    by_cases h : k' = k
    · simp [setk, h, alookup]
    · simp only [setk, if_neg h, alookup]
      rw [if_neg (fun hk => h hk.symm)]
      exact ih

theorem alookup_setk_other {α β : Type} [DecidableEq α]
    (m : List (α × β)) (k k' : α) (v : β) (h : k' ≠ k) :
    alookup (setk m k v) k' = alookup m k' := by
  induction m with
  | nil => simp [setk, alookup, h]
  | cons p rest ih =>
    obtain ⟨k1, v1⟩ := p
    by_cases h1 : k1 = k
    · subst h1
      simp [setk, alookup, h]
    · simp only [setk, if_neg h1, alookup]
      by_cases h2 : k' = k1
      · simp [h2]
      · simp [h2, ih]

theorem setk_keys_subset {α β : Type} [DecidableEq α]
    (m : List (α × β)) (k : α) (v : β) (x : α)
    (hx : x ∈ (setk m k v).map Prod.fst) : x ∈ m.map Prod.fst ∨ x = k := by
  induction m with
  | nil => simp [setk] at hx; right; exact hx
  | cons p rest ih =>
    obtain ⟨k1, v1⟩ := p
    simp only [List.map_cons, List.mem_cons]
    by_cases h1 : k1 = k
    · simp only [setk, if_pos h1, List.map_cons, List.mem_cons] at hx
      rcases hx with h | h
      · right; exact h
      · left; right; exact h
    · simp only [setk, if_neg h1, List.map_cons, List.mem_cons] at hx
      rcases hx with h | h
      · left; left; exact h
      · rcases ih h with h2 | h2
        · left; right; exact h2
        · right; exact h2

/-! ## Lemmas: thread-resolver termination -/

theorem nodup_subset_length_le {α : Type} [DecidableEq α]
    (l S : List α) (hnodup : l.Nodup) (hsub : ∀ x ∈ l, x ∈ S) :
    l.length ≤ S.dedup.length := by
  classical
  have h1 : l.toFinset.card = l.length := List.toFinset_card_of_nodup hnodup
  have h2 : l.toFinset ⊆ S.toFinset := by
    intro x hx
    simp only [List.mem_toFinset] at hx ⊢
    exact hsub x hx
  have h3 : S.toFinset.card = S.dedup.length := List.card_toFinset S
  calc l.length = l.toFinset.card := h1.symm
    _ ≤ S.toFinset.card := Finset.card_le_card h2
    _ = S.dedup.length := h3

theorem resolveLoop_isSome (pm : List (String × String)) (corpus : List String)
    (cache : List (String × (String × Int))) (S : List String)
    (hcorpus : ∀ c ∈ corpus, c ∈ S) :
    ∀ fuel visited current, visited.Nodup → (∀ v ∈ visited, v ∈ S) →
      current ∈ S → S.dedup.length + 1 ≤ fuel + visited.length →
      (resolveLoop pm corpus cache fuel visited current).isSome := by
  intro fuel
  induction fuel with
  | zero =>
    intro visited current hnodup hsub hcur hbound
    exfalso
    have := nodup_subset_length_le visited S hnodup hsub
    omega
  | succ n ih =>
    intro visited current hnodup hsub hcur hbound
    unfold resolveLoop
    cases hc : alookup cache current with
    | some rd => simp
    | none =>
      simp only
      by_cases hv : current ∈ visited
      · rw [if_pos hv]; simp
      · rw [if_neg hv]
        cases hp : pEff pm current with
        | none => simp
        | some parent =>
          simp only
          by_cases hpc : parent ∈ corpus
          · rw [if_pos hpc]
            apply ih
            · exact List.Nodup.append hnodup (List.nodup_singleton current)
                (by simpa using fun h => hv h)
            · intro v hvmem
              rcases List.mem_append.mp hvmem with h | h
              · exact hsub v h
              · simpa using (List.mem_singleton.mp h) ▸ hcur
            · exact hcorpus parent hpc
            · simp only [List.length_append, List.length_singleton]
              omega
          · rw [if_neg hpc]; simp

theorem resolveLoop_visited_subset (pm : List (String × String))
    (corpus : List String) (cache : List (String × (String × Int))) :
    ∀ fuel visited current root d vis,
      resolveLoop pm corpus cache fuel visited current = some (root, d, vis) →
      ∀ v ∈ visited, v ∈ vis := by
  intro fuel
  induction fuel with
  | zero => intro visited current root d vis h; simp [resolveLoop] at h
  | succ n ih =>
    intro visited current root d vis h v hv
    unfold resolveLoop at h
    cases hc : alookup cache current with
    | some rd =>
      rw [hc] at h
      simp only [Option.some.injEq, Prod.mk.injEq] at h
      exact h.2.2 ▸ hv
    | none =>
      rw [hc] at h
      simp only at h
      by_cases hvv : current ∈ visited
      · rw [if_pos hvv] at h
        simp only [Option.some.injEq, Prod.mk.injEq] at h
        exact h.2.2 ▸ hv
      · rw [if_neg hvv] at h
        cases hp : pEff pm current with
        | none =>
          rw [hp] at h
          simp only [Option.some.injEq, Prod.mk.injEq] at h
          exact h.2.2 ▸ (List.mem_append.mpr (Or.inl hv))
        | some parent =>
          rw [hp] at h
          simp only at h
          by_cases hpc : parent ∈ corpus
          · rw [if_pos hpc] at h
            exact ih _ _ _ _ _ h v (List.mem_append.mpr (Or.inl hv))
          · rw [if_neg hpc] at h
            simp only [Option.some.injEq, Prod.mk.injEq] at h
            exact h.2.2 ▸ (List.mem_append.mpr (Or.inl hv))

theorem resolveLoop_start_mem (pm : List (String × String))
    (corpus : List String) (cache : List (String × (String × Int)))
    (fuel : Nat) (tid root : String) (d : Int) (vis : List String)
    (hcache : alookup cache tid = none)
    (h : resolveLoop pm corpus cache fuel [] tid = some (root, d, vis)) :
    tid ∈ vis := by
  cases fuel with
  | zero => simp [resolveLoop] at h
  | succ n =>
    unfold resolveLoop at h
    rw [hcache] at h
    simp only at h
    rw [if_neg (List.not_mem_nil tid)] at h
    simp only [List.nil_append] at h
    cases hp : pEff pm tid with
    | none =>
      rw [hp] at h
      simp only [Option.some.injEq, Prod.mk.injEq] at h
      simp [← h.2.2]
    | some parent =>
      rw [hp] at h
      simp only at h
      by_cases hpc : parent ∈ corpus
      · rw [if_pos hpc] at h
        exact resolveLoop_visited_subset pm corpus cache _ _ _ _ _ _ h tid (by simp)
      · rw [if_neg hpc] at h
        simp only [Option.some.injEq, Prod.mk.injEq] at h
        simp [← h.2.2]

theorem alookup_backfill_isSome (cache : List (String × (String × Int)))
    (root : String) (d : Int) (visited : List String) (x : String)
    (hx : x ∈ visited ∨ (alookup cache x).isSome) :
    (alookup (backfill cache root d visited) x).isSome := by
  unfold backfill
  rw [← List.mem_reverse] at hx
  generalize visited.reverse = l at hx
  induction l generalizing cache d with
  | nil =>
    rcases hx with h | h
    · simp at h
    · simpa [List.foldl_nil]
  | cons y rest ih =>
    simp only [List.foldl_cons]
    rcases hx with h | h
    · rcases List.mem_cons.mp h with h1 | h1
      · subst h1
        apply ih
        right
        simp [alookup_setk_self]
      · exact ih _ _ (Or.inl h1)
    · by_cases hxy : x = y
      · subst hxy
        apply ih
        right
        simp [alookup_setk_self]
      · apply ih
        right
        rwa [alookup_setk_other _ _ _ _ hxy]

theorem resolveOne_isSome (pm : List (String × String)) (corpus : List String)
    (cache : List (String × (String × Int))) (tid : String) :
    (resolveOne pm corpus cache tid).isSome := by
  unfold resolveOne
  cases hc : alookup cache tid with
  | some rd => simp
  | none =>
    simp only
    have hloop : (resolveLoop pm corpus cache (corpus.length + 2) [] tid).isSome := by
      apply resolveLoop_isSome pm corpus cache (tid :: corpus)
        (fun c hcm => List.mem_cons_of_mem tid hcm)
      · exact List.nodup_nil
      · intro v hv; simp at hv
      · exact List.mem_cons_self tid corpus
      · have h1 : (tid :: corpus).dedup.length ≤ (tid :: corpus).length :=
          List.Sublist.length_le (List.dedup_sublist _)
        simp only [List.length_cons] at h1
        omega
    cases hl : resolveLoop pm corpus cache (corpus.length + 2) [] tid with
    | none => rw [hl] at hloop; simp at hloop
    | some out =>
      obtain ⟨root, d, vis⟩ := out
      simp only
      have hmem : tid ∈ vis := resolveLoop_start_mem pm corpus cache _ _ _ _ _ hc hl
      have := alookup_backfill_isSome cache root d vis tid (Or.inl hmem)
      cases hb : alookup (backfill cache root d vis) tid with
      | none => rw [hb] at this; simp at this
      | some rd => simp

theorem resolveAllGo_isSome (pm : List (String × String)) (corpus : List String) :
    ∀ (todo : List String) (cache : List (String × (String × Int))),
      (resolveAllGo pm corpus cache todo).isSome := by
  intro todo
  induction todo with
  | nil => intro cache; simp [resolveAllGo]
  | cons t rest ih =>
    intro cache
    unfold resolveAllGo
    have h1 := resolveOne_isSome pm corpus cache t
    cases hr : resolveOne pm corpus cache t with
    | none => rw [hr] at h1; simp at h1
    | some out =>
      obtain ⟨rd, cache'⟩ := out
      have h2 := ih cache'
      cases hrest : resolveAllGo pm corpus cache' rest with
      | none => rw [hrest] at h2; simp at h2
      | some l => simp [hrest]

theorem computeThreadMetadata_isSome (corpus : List String)
    (pm : List (String × String)) : (computeThreadMetadata corpus pm).isSome :=
  resolveAllGo_isSome pm corpus corpus []

theorem computeNodeStats_isSome (edges : List Edge) (lookup : List (String × Int)) :
    (computeNodeStats edges lookup).isSome := by
  unfold computeNodeStats
  have := computeThreadMetadata_isSome (lookup.map (fun p => p.1))
    ((edges.foldl (statsStep lookup) emptyStatsAcc).parentMap)
  cases h : computeThreadMetadata (lookup.map (fun p => p.1))
      ((edges.foldl (statsStep lookup) emptyStatsAcc).parentMap) with
  | none => rw [h] at this; simp at this
  | some results => simp [h]

theorem buildLinksCore_isSome (rows : List InputRow) (scopeRestricted : Bool)
    (incremental : Bool) (changedTweetIds : List (Option String))
    (priorEdges : Option (List RawEdge)) :
    (buildLinksCore rows scopeRestricted incremental changedTweetIds priorEdges).isSome := by
  unfold buildLinksCore
  dsimp only
  generalize (finalizeEdges _ _) = edges
  have := computeNodeStats_isSome edges (buildTweetLookup (prepareSourceRows rows))
  cases h : computeNodeStats edges (buildTweetLookup (prepareSourceRows rows)) with
  | none => rw [h] at this; simp at this
  | some stats => simp [h]

/-- Destructuring a successful build into its pipeline stages. -/
theorem buildLinksCore_some_elim (rows : List InputRow) (scopeRestricted : Bool)
    (incremental : Bool) (changedTweetIds : List (Option String))
    (priorEdges : Option (List RawEdge)) (result : BuildResult)
    (h : buildLinksCore rows scopeRestricted incremental changedTweetIds priorEdges =
      some result) :
    result.edges = finalizeEdges
        (selectEdges (prepareSourceRows rows)
          (buildTweetLookup (prepareSourceRows rows))
          ((changedTweetIds.filterMap normalizeTweetId).dedup)
          (incremental && !((changedTweetIds.filterMap normalizeTweetId).dedup).isEmpty &&
            !scopeRestricted) priorEdges).1
        (buildTweetLookup (prepareSourceRows rows)) ∧
      computeNodeStats result.edges (buildTweetLookup (prepareSourceRows rows)) =
        some result.nodeStats ∧
      result.incremental = (selectEdges (prepareSourceRows rows)
          (buildTweetLookup (prepareSourceRows rows))
          ((changedTweetIds.filterMap normalizeTweetId).dedup)
          (incremental && !((changedTweetIds.filterMap normalizeTweetId).dedup).isEmpty &&
            !scopeRestricted) priorEdges).2.1 ∧
      result.fallbackWarning = (selectEdges (prepareSourceRows rows)
          (buildTweetLookup (prepareSourceRows rows))
          ((changedTweetIds.filterMap normalizeTweetId).dedup)
          (incremental && !((changedTweetIds.filterMap normalizeTweetId).dedup).isEmpty &&
            !scopeRestricted) priorEdges).2.2 ∧
      result.incremental_requested =
        (incremental && !((changedTweetIds.filterMap normalizeTweetId).dedup).isEmpty &&
          !scopeRestricted) := by
  unfold buildLinksCore at h
  dsimp only at h
  cases hcs : computeNodeStats
      (finalizeEdges
        (selectEdges (prepareSourceRows rows)
          (buildTweetLookup (prepareSourceRows rows))
          ((changedTweetIds.filterMap normalizeTweetId).dedup)
          (incremental && !((changedTweetIds.filterMap normalizeTweetId).dedup).isEmpty &&
            !scopeRestricted) priorEdges).1
        (buildTweetLookup (prepareSourceRows rows)))
      (buildTweetLookup (prepareSourceRows rows)) with
  | none => rw [hcs] at h; simp at h
  | some stats =>
    rw [hcs] at h
    simp only [Option.some.injEq] at h
    subst h
    exact ⟨rfl, hcs, rfl, rfl, rfl⟩

/-! ## Lemmas: depth non-negativity -/

theorem cacheNonneg_setk (cache : List (String × (String × Int)))
    (hc : CacheNonneg cache) (k : String) (r : String) (d : Int) (hd : 0 ≤ d) :
    CacheNonneg (setk cache k (r, d)) := by
  intro k' r' d' h
  by_cases hk : k' = k
  · subst hk
    rw [alookup_setk_self] at h
    cases h
    exact hd
  · rw [alookup_setk_other _ _ _ _ hk] at h
    exact hc k' r' d' h

theorem backfill_nonneg (root : String) (visited : List String) :
    ∀ (cache : List (String × (String × Int))) (d : Int), 0 ≤ d →
      CacheNonneg cache → CacheNonneg (backfill cache root d visited) := by
  unfold backfill
  generalize visited.reverse = l
  induction l with
  | nil => intro cache d _ hc; simpa using hc
  | cons y rest ih =>
    intro cache d hd hc
    simp only [List.foldl_cons]
    exact ih (setk cache y (root, d)) (d + 1) (by omega)
      (cacheNonneg_setk cache hc y root d hd)

theorem resolveLoop_depth_nonneg (pm : List (String × String))
    (corpus : List String) (cache : List (String × (String × Int)))
    (hc : CacheNonneg cache) :
    ∀ fuel visited current root d vis,
      resolveLoop pm corpus cache fuel visited current = some (root, d, vis) →
      0 ≤ d := by
  intro fuel
  induction fuel with
  | zero => intro visited current root d vis h; simp [resolveLoop] at h
  | succ n ih =>
    intro visited current root d vis h
    unfold resolveLoop at h
    cases hcache : alookup cache current with
    | some rd =>
      rw [hcache] at h
      obtain ⟨cr, cd⟩ := rd
      simp only [Option.some.injEq, Prod.mk.injEq] at h
      have := hc current cr cd hcache
      omega
    | none =>
      rw [hcache] at h
      simp only at h
      by_cases hv : current ∈ visited
      · rw [if_pos hv] at h
        simp only [Option.some.injEq, Prod.mk.injEq] at h
        omega
      · rw [if_neg hv] at h
        cases hp : pEff pm current with
        | none =>
          rw [hp] at h
          simp only [Option.some.injEq, Prod.mk.injEq] at h
          omega
        | some parent =>
          rw [hp] at h
          simp only at h
          by_cases hpc : parent ∈ corpus
          · rw [if_pos hpc] at h
            exact ih _ _ _ _ _ h
          · rw [if_neg hpc] at h
            simp only [Option.some.injEq, Prod.mk.injEq] at h
            omega

theorem resolveOne_nonneg (pm : List (String × String)) (corpus : List String)
    (cache : List (String × (String × Int))) (tid : String)
    (hc : CacheNonneg cache) (rd : String × Int)
    (cache' : List (String × (String × Int)))
    (h : resolveOne pm corpus cache tid = some (rd, cache')) :
    0 ≤ rd.2 ∧ CacheNonneg cache' := by
  unfold resolveOne at h
  cases hcache : alookup cache tid with
  | some rd0 =>
    rw [hcache] at h
    simp only [Option.some.injEq, Prod.mk.injEq] at h
    obtain ⟨h1, h2⟩ := h
    subst h1; subst h2
    obtain ⟨r0, d0⟩ := rd0
    exact ⟨hc tid r0 d0 hcache, hc⟩
  | none =>
    rw [hcache] at h
    simp only at h
    cases hl : resolveLoop pm corpus cache (corpus.length + 2) [] tid with
    | none => rw [hl] at h; simp at h
    | some out =>
      rw [hl] at h
      obtain ⟨root, d0, vis⟩ := out
      simp only at h
      have hd0 : 0 ≤ d0 := resolveLoop_depth_nonneg pm corpus cache hc _ _ _ _ _ _ hl
      have hbn : CacheNonneg (backfill cache root d0 vis) :=
        backfill_nonneg root vis cache d0 hd0 hc
      cases hb : alookup (backfill cache root d0 vis) tid with
      | none => rw [hb] at h; simp at h
      | some rd0 =>
        rw [hb] at h
        simp only [Option.some.injEq, Prod.mk.injEq] at h
        obtain ⟨h1, h2⟩ := h
        subst h1; subst h2
        obtain ⟨r0, d0'⟩ := rd0
        exact ⟨hbn tid r0 d0' hb, hbn⟩

/-! ## Lemmas: node-stats shape -/

theorem resolveAllGo_keys (pm : List (String × String)) (corpus : List String) :
    ∀ (todo : List String) (cache : List (String × (String × Int))) res,
      resolveAllGo pm corpus cache todo = some res →
      res.map Prod.fst = todo := by
  intro todo
  induction todo with
  | nil => intro cache res h; simp [resolveAllGo] at h; simp [← h]
  | cons t rest ih =>
    intro cache res h
    unfold resolveAllGo at h
    cases hr : resolveOne pm corpus cache t with
    | none => rw [hr] at h; simp at h
    | some out =>
      rw [hr] at h
      obtain ⟨rd, cache'⟩ := out
      simp only at h
      cases hrest : resolveAllGo pm corpus cache' rest with
      | none => rw [hrest] at h; simp at h
      | some res' =>
        rw [hrest] at h
        simp only [Option.some.injEq] at h
        subst h
        simp [ih cache' res' hrest]

/-! ### Lemmas: the memoized resolver agrees with the non-memoized resolution -/

theorem specResolve_succ (corpus : List String) (pm : List (String × String))
    (fuel : Nat) (x : String) :
    specResolve corpus pm (fuel + 1) x =
      match pEff pm x with
      | none => some (x, 0)
      | some p =>
        if p ∈ corpus then
          (specResolve corpus pm fuel p).map (fun rd => (rd.1, rd.2 + 1))
        else some (p, 1) := rfl

theorem specResolve_succ_none (corpus : List String) (pm : List (String × String))
    (fuel : Nat) (x : String) (hp : pEff pm x = none) :
    specResolve corpus pm (fuel + 1) x = some (x, 0) := by
  rw [specResolve_succ, hp]

theorem specResolve_succ_mem (corpus : List String) (pm : List (String × String))
    (fuel : Nat) (x p : String) (hp : pEff pm x = some p) (hm : p ∈ corpus) :
    specResolve corpus pm (fuel + 1) x =
      (specResolve corpus pm fuel p).map (fun rd => (rd.1, rd.2 + 1)) := by
  simp only [specResolve_succ, hp, if_pos hm]

theorem specResolve_succ_ext (corpus : List String) (pm : List (String × String))
    (fuel : Nat) (x p : String) (hp : pEff pm x = some p) (hm : p ∉ corpus) :
    specResolve corpus pm (fuel + 1) x = some (p, 1) := by
  simp only [specResolve_succ, hp, if_neg hm]

theorem specResolve_mono (corpus : List String) (pm : List (String × String)) :
    ∀ (fuel : Nat) (x : String) (v : String × Int),
      specResolve corpus pm fuel x = some v →
      specResolve corpus pm (fuel + 1) x = some v := by
  intro fuel
  induction fuel with
  | zero => intro x v h; simp [specResolve] at h
  | succ fuel ih =>
    intro x v h
    cases hp : pEff pm x with
    | none =>
      rw [specResolve_succ_none corpus pm fuel x hp] at h
      rw [specResolve_succ_none corpus pm (fuel + 1) x hp]
      exact h
    | some p =>
      by_cases hm : p ∈ corpus
      · rw [specResolve_succ_mem corpus pm fuel x p hp hm] at h
        rw [specResolve_succ_mem corpus pm (fuel + 1) x p hp hm]
        cases hrec : specResolve corpus pm fuel p with
        | none => rw [hrec] at h; simp at h
        | some w =>
          rw [hrec] at h
          rw [ih p w hrec]
          exact h
      · rw [specResolve_succ_ext corpus pm fuel x p hp hm] at h
        rw [specResolve_succ_ext corpus pm (fuel + 1) x p hp hm]
        exact h

theorem specResolve_le (corpus : List String) (pm : List (String × String))
    (f f' : Nat) (hle : f ≤ f') (x : String) (v : String × Int)
    (h : specResolve corpus pm f x = some v) :
    specResolve corpus pm f' x = some v := by
  induction f' with
  | zero =>
    have : f = 0 := Nat.le_zero.mp hle
    subst this; exact h
  | succ f' ih =>
    rcases Nat.lt_or_ge f (f' + 1) with hlt | hge
    · exact specResolve_mono corpus pm f' x v (ih (Nat.lt_succ_iff.mp hlt))
    · have : f = f' + 1 := Nat.le_antisymm hle hge
      subst this; exact h

theorem specRes_functional (corpus : List String) (pm : List (String × String))
    (x r r' : String) (d d' : Int)
    (h1 : SpecRes corpus pm x r d) (h2 : SpecRes corpus pm x r' d') :
    r = r' ∧ d = d' := by
  obtain ⟨f1, h1⟩ := h1
  obtain ⟨f2, h2⟩ := h2
  have e1 : specResolve corpus pm (max f1 f2) x = some (r, d) :=
    specResolve_le corpus pm f1 _ (Nat.le_max_left _ _) x _ h1
  have e2 : specResolve corpus pm (max f1 f2) x = some (r', d') :=
    specResolve_le corpus pm f2 _ (Nat.le_max_right _ _) x _ h2
  rw [e1] at e2
  simp only [Option.some.injEq, Prod.mk.injEq] at e2
  exact e2

theorem specRes_nonneg (corpus : List String) (pm : List (String × String)) :
    ∀ (fuel : Nat) (x r : String) (d : Int),
      specResolve corpus pm fuel x = some (r, d) → 0 ≤ d := by
  intro fuel
  induction fuel with
  | zero => intro x r d h; simp [specResolve] at h
  | succ fuel ih =>
    intro x r d h
    cases hp : pEff pm x with
    | none =>
      rw [specResolve_succ_none corpus pm fuel x hp] at h
      simp only [Option.some.injEq, Prod.mk.injEq] at h
      omega
    | some p =>
      by_cases hm : p ∈ corpus
      · rw [specResolve_succ_mem corpus pm fuel x p hp hm] at h
        cases hrec : specResolve corpus pm fuel p with
        | none => rw [hrec] at h; simp at h
        | some w =>
          rw [hrec] at h
          simp only [Option.map_some', Option.some.injEq, Prod.mk.injEq] at h
          have := ih p w.1 w.2 (by rw [hrec])
          omega
      · rw [specResolve_succ_ext corpus pm fuel x p hp hm] at h
        simp only [Option.some.injEq, Prod.mk.injEq] at h
        omega

theorem specRes_root_in_corpus (corpus : List String) (pm : List (String × String)) :
    ∀ (fuel : Nat) (x r : String) (d : Int),
      specResolve corpus pm fuel x = some (r, d) → r ∈ corpus →
      pEff pm r = none := by
  intro fuel
  induction fuel with
  | zero => intro x r d h; simp [specResolve] at h
  | succ fuel ih =>
    intro x r d h hr
    cases hp : pEff pm x with
    | none =>
      rw [specResolve_succ_none corpus pm fuel x hp] at h
      simp only [Option.some.injEq, Prod.mk.injEq] at h
      rw [← h.1]
      exact hp
    | some p =>
      by_cases hm : p ∈ corpus
      · rw [specResolve_succ_mem corpus pm fuel x p hp hm] at h
        cases hrec : specResolve corpus pm fuel p with
        | none => rw [hrec] at h; simp at h
        | some w =>
          rw [hrec] at h
          simp only [Option.map_some', Option.some.injEq, Prod.mk.injEq] at h
          rw [← h.1]
          exact ih p w.1 w.2 (by rw [hrec]) (by rw [h.1]; exact hr)
      · rw [specResolve_succ_ext corpus pm fuel x p hp hm] at h
        simp only [Option.some.injEq, Prod.mk.injEq] at h
        exact absurd (h.1 ▸ hr) hm

theorem alookup_mem {α β : Type} [DecidableEq α]
    (l : List (α × β)) (k : α) (v : β) (h : alookup l k = some v) : (k, v) ∈ l := by
  induction l with
  | nil => simp [alookup] at h
  | cons p rest ih =>
    obtain ⟨k0, v0⟩ := p
    by_cases hk : k = k0
    · subst hk
      simp [alookup] at h
      simp [h]
    · simp only [alookup, if_neg hk] at h
      exact List.mem_cons_of_mem _ (ih h)

theorem backfill_fold_lookup (root : String) :
    ∀ (l : List String) (cache : List (String × (String × Int))) (d : Int) (x : String),
      (alookup ((l.foldl (fun st node => (setk st.1 node (root, st.2), st.2 + 1))
          (cache, d)).1) x = alookup cache x) ∨
      (∃ j, ∃ hj : j < l.length, l.get ⟨j, hj⟩ = x ∧
        alookup ((l.foldl (fun st node => (setk st.1 node (root, st.2), st.2 + 1))
          (cache, d)).1) x = some (root, d + (j : Int))) := by
  intro l
  induction l with
  | nil => intro cache d x; left; rfl
  | cons y rest ih =>
    intro cache d x
    have hstep : ((y :: rest).foldl (fun st node => (setk st.1 node (root, st.2), st.2 + 1))
        (cache, d)) =
        (rest.foldl (fun st node => (setk st.1 node (root, st.2), st.2 + 1))
          (setk cache y (root, d), d + 1)) := rfl
    rw [hstep]
    rcases ih (setk cache y (root, d)) (d + 1) x with heq | ⟨j, hj, hget, heq⟩
    · by_cases hxy : x = y
      · right
        refine ⟨0, by simp, by simpa using hxy.symm, ?_⟩
        rw [heq, hxy]
        rw [alookup_setk_self]
        simp
      · left
        rw [heq, alookup_setk_other _ _ _ _ hxy]
    · right
      refine ⟨j + 1, by simpa using Nat.succ_lt_succ hj, by simpa using hget, ?_⟩
      rw [heq]
      congr 2
      push_cast
      ring

theorem backfill_cacheOK (corpus : List String) (pm : List (String × String))
    (cache : List (String × (String × Int))) (root : String) (d0 : Int)
    (vis : List String)
    (hb : ∀ i (h : i < vis.length), SpecRes corpus pm vis[i] root
      (d0 + ((vis.length - 1 - i : Nat) : Int)))
    (hc : CacheOK corpus pm cache) :
    CacheOK corpus pm (backfill cache root d0 vis) := by
  intro k r d hlook
  unfold backfill at hlook
  rcases backfill_fold_lookup root vis.reverse cache d0 k with heq | ⟨j, hj, hget, heq⟩
  · rw [heq] at hlook
    exact hc k r d hlook
  · rw [heq] at hlook
    simp only [Option.some.injEq, Prod.mk.injEq] at hlook
    have hjlen : j < vis.length := by simpa using hj
    have hrev : vis.reverse.get ⟨j, hj⟩ = vis[vis.length - 1 - j] := by
      rw [List.get_eq_getElem]
      rw [List.getElem_reverse]
    have hidx : vis.length - 1 - j < vis.length := by omega
    have hspec := hb (vis.length - 1 - j) hidx
    rw [← hrev, hget] at hspec
    have harith : (vis.length - 1 - (vis.length - 1 - j) : Nat) = j := by omega
    rw [harith] at hspec
    obtain ⟨f, hf⟩ := hspec
    exact ⟨f, by rw [hf, hlook.1, hlook.2]⟩

theorem resolveLoop_specRes (pm : List (String × String)) (corpus : List String) :
    ∀ (fuel : Nat) (cache : List (String × (String × Int))),
      CacheOK corpus pm cache →
      ∀ (visited : List String) (current : String) (rr : String) (dc : Int),
        SpecRes corpus pm current rr dc →
        (∀ i (h : i < visited.length),
          SpecRes corpus pm visited[i] rr (dc + ((visited.length - i : Nat) : Int))) →
        ∀ root d0 vis, resolveLoop pm corpus cache fuel visited current = some (root, d0, vis) →
          ∀ i (h : i < vis.length),
            SpecRes corpus pm vis[i] root (d0 + ((vis.length - 1 - i : Nat) : Int)) := by
  intro fuel
  induction fuel with
  | zero =>
    intro cache hc visited current rr dc hcur hinv root d0 vis h
    simp [resolveLoop] at h
  | succ fuel ih =>
    intro cache hc visited current rr dc hcur hinv root d0 vis h
    unfold resolveLoop at h
    cases hcache : alookup cache current with
    | some cd =>
      obtain ⟨cr, cdep⟩ := cd
      rw [hcache] at h
      simp only [Option.some.injEq, Prod.mk.injEq] at h
      obtain ⟨hroot, hd0, hvis⟩ := h
      subst hroot hd0 hvis
      have hcur' : SpecRes corpus pm current cr cdep := hc current cr cdep hcache
      have hfun := specRes_functional corpus pm current rr cr dc cdep hcur hcur'
      have hdc := hfun.2
      intro i hilt
      have hsp := hinv i hilt
      rw [hfun.1] at hsp
      have harith : cdep + 1 + ((visited.length - 1 - i : Nat) : Int) =
          dc + ((visited.length - i : Nat) : Int) := by omega
      rw [harith]
      exact hsp
    | none =>
      rw [hcache] at h
      simp only at h
      by_cases hmem : current ∈ visited
      · exfalso
        rw [if_pos hmem] at h
        obtain ⟨⟨i, hilt⟩, hget⟩ := List.mem_iff_get.mp hmem
        have hsp := hinv i hilt
        rw [List.get_eq_getElem] at hget
        rw [hget] at hsp
        have hfun := specRes_functional corpus pm current rr rr dc
          (dc + ((visited.length - i : Nat) : Int)) hcur hsp
        have hdc := hfun.2
        omega
      · rw [if_neg hmem] at h
        cases hp : pEff pm current with
        | none =>
          rw [hp] at h
          simp only [Option.some.injEq, Prod.mk.injEq] at h
          obtain ⟨hroot, hd0, hvis⟩ := h
          obtain ⟨f, hf⟩ := id hcur
          cases f with
          | zero => simp [specResolve] at hf
          | succ f' =>
            rw [specResolve_succ_none corpus pm f' current hp] at hf
            simp only [Option.some.injEq, Prod.mk.injEq] at hf
            obtain ⟨hrr, hdcz⟩ := hf
            subst hroot hd0 hvis
            intro i hilt
            have hlen : (visited ++ [current]).length = visited.length + 1 := by simp
            have hilt2 : i < visited.length + 1 := by rw [← hlen]; exact hilt
            by_cases hi : i < visited.length
            · have hgeti : (visited ++ [current])[i] = visited[i] :=
                List.getElem_append_left hi
              rw [hgeti]
              have hsp := hinv i hi
              rw [← hrr, ← hdcz] at hsp
              have harith : (0 : Int) + (((visited ++ [current]).length - 1 - i : Nat) : Int) =
                  0 + ((visited.length - i : Nat) : Int) := by
                rw [hlen]
                omega
              rw [harith]
              exact hsp
            · have hieq : i = visited.length := by omega
              subst hieq
              have hgeti : (visited ++ [current])[visited.length] =
                  current := by
                rw [List.getElem_append_right (Nat.le_refl _)]
                simp
              rw [hgeti]
              have harith : (0 : Int) +
                  (((visited ++ [current]).length - 1 - visited.length : Nat) : Int) = 0 := by
                rw [hlen]
                omega
              rw [harith]
              exact ⟨f' + 1, specResolve_succ_none corpus pm f' current hp⟩
        | some p =>
          rw [hp] at h
          simp only at h
          obtain ⟨f, hf⟩ := id hcur
          cases f with
          | zero => simp [specResolve] at hf
          | succ f' =>
            by_cases hpc : p ∈ corpus
            · rw [if_pos hpc] at h
              rw [specResolve_succ_mem corpus pm f' current p hp hpc] at hf
              cases hrec : specResolve corpus pm f' p with
              | none => rw [hrec] at hf; simp at hf
              | some w =>
                obtain ⟨wr, wd⟩ := w
                rw [hrec] at hf
                simp only [Option.map_some', Option.some.injEq, Prod.mk.injEq] at hf
                obtain ⟨hrr, hdc⟩ := hf
                have hpw : SpecRes corpus pm p rr wd := ⟨f', by rw [hrec, hrr]⟩
                refine ih cache hc (visited ++ [current]) p rr wd hpw ?_ root d0 vis h
                intro i hilt
                have hlen : (visited ++ [current]).length = visited.length + 1 := by simp
                have hilt2 : i < visited.length + 1 := by rw [← hlen]; exact hilt
                by_cases hi : i < visited.length
                · have hgeti : (visited ++ [current])[i] = visited[i] :=
                    List.getElem_append_left hi
                  rw [hgeti]
                  have hsp := hinv i hi
                  have harith : wd + (((visited ++ [current]).length - i : Nat) : Int) =
                      dc + ((visited.length - i : Nat) : Int) := by
                    rw [hlen]
                    omega
                  rw [harith]
                  exact hsp
                · have hieq : i = visited.length := by omega
                  subst hieq
                  have hgeti : (visited ++ [current])[visited.length] =
                      current := by
                    rw [List.getElem_append_right (Nat.le_refl _)]
                    simp
                  rw [hgeti]
                  have harith : wd +
                      (((visited ++ [current]).length - visited.length : Nat) : Int) = dc := by
                    rw [hlen]
                    omega
                  rw [harith]
                  exact hcur
            · rw [if_neg hpc] at h
              rw [specResolve_succ_ext corpus pm f' current p hp hpc] at hf
              simp only [Option.some.injEq, Prod.mk.injEq] at h hf
              obtain ⟨hroot, hd0, hvis⟩ := h
              obtain ⟨hrr, hdc⟩ := hf
              subst hroot hd0 hvis
              intro i hilt
              have hlen : (visited ++ [current]).length = visited.length + 1 := by simp
              have hilt2 : i < visited.length + 1 := by rw [← hlen]; exact hilt
              by_cases hi : i < visited.length
              · have hgeti : (visited ++ [current])[i] = visited[i] :=
                  List.getElem_append_left hi
                rw [hgeti]
                have hsp := hinv i hi
                rw [← hrr, ← hdc] at hsp
                have harith : (1 : Int) +
                    (((visited ++ [current]).length - 1 - i : Nat) : Int) =
                    1 + ((visited.length - i : Nat) : Int) := by
                  rw [hlen]
                  omega
                rw [harith]
                exact hsp
              · have hieq : i = visited.length := by omega
                subst hieq
                have hgeti : (visited ++ [current])[visited.length] =
                    current := by
                  rw [List.getElem_append_right (Nat.le_refl _)]
                  simp
                rw [hgeti]
                have harith : (1 : Int) +
                    (((visited ++ [current]).length - 1 - visited.length : Nat) : Int) = 1 := by
                  rw [hlen]
                  omega
                rw [harith]
                exact ⟨f' + 1, specResolve_succ_ext corpus pm f' current p hp hpc⟩

theorem resolveOne_specRes (pm : List (String × String)) (corpus : List String)
    (cache : List (String × (String × Int))) (tid : String)
    (hc : CacheOK corpus pm cache)
    (rr : String) (dc : Int) (htid : SpecRes corpus pm tid rr dc)
    (rd : String × Int) (cache' : List (String × (String × Int)))
    (h : resolveOne pm corpus cache tid = some (rd, cache')) :
    SpecRes corpus pm tid rd.1 rd.2 ∧ CacheOK corpus pm cache' := by
  unfold resolveOne at h
  cases hcache : alookup cache tid with
  | some rd0 =>
    rw [hcache] at h
    simp only [Option.some.injEq, Prod.mk.injEq] at h
    obtain ⟨h1, h2⟩ := h
    subst h1; subst h2
    obtain ⟨r0, d0⟩ := rd0
    exact ⟨hc tid r0 d0 hcache, hc⟩
  | none =>
    rw [hcache] at h
    simp only at h
    cases hl : resolveLoop pm corpus cache (corpus.length + 2) [] tid with
    | none => rw [hl] at h; simp at h
    | some out =>
      rw [hl] at h
      obtain ⟨root, d0, vis⟩ := out
      simp only at h
      have hback : ∀ i (hi : i < vis.length),
          SpecRes corpus pm vis[i] root (d0 + ((vis.length - 1 - i : Nat) : Int)) :=
        resolveLoop_specRes pm corpus (corpus.length + 2) cache hc [] tid rr dc htid
          (fun i hi => absurd hi (Nat.not_lt_zero i)) root d0 vis hl
      have hok : CacheOK corpus pm (backfill cache root d0 vis) :=
        backfill_cacheOK corpus pm cache root d0 vis hback hc
      cases hb : alookup (backfill cache root d0 vis) tid with
      | none => rw [hb] at h; simp at h
      | some rd0 =>
        rw [hb] at h
        simp only [Option.some.injEq, Prod.mk.injEq] at h
        obtain ⟨h1, h2⟩ := h
        subst h1; subst h2
        obtain ⟨r0, d0'⟩ := rd0
        exact ⟨hok tid r0 d0' hb, hok⟩

theorem resolveAllGo_specRes (pm : List (String × String)) (corpus : List String) :
    ∀ (tids : List String) (cache : List (String × (String × Int))),
      CacheOK corpus pm cache →
      (∀ t ∈ tids, ∃ r d, SpecRes corpus pm t r d) →
      ∀ out, resolveAllGo pm corpus cache tids = some out →
        ∀ t rd, (t, rd) ∈ out → SpecRes corpus pm t rd.1 rd.2 := by
  intro tids
  induction tids with
  | nil =>
    intro cache hc hex out h t rd hmem
    simp [resolveAllGo] at h
    subst h
    simp at hmem
  | cons tid rest ih =>
    intro cache hc hex out h t rd hmem
    unfold resolveAllGo at h
    cases h1 : resolveOne pm corpus cache tid with
    | none => rw [h1] at h; simp at h
    | some pair =>
      rw [h1] at h
      obtain ⟨rd0, cache'⟩ := pair
      simp only at h
      cases h2 : resolveAllGo pm corpus cache' rest with
      | none => rw [h2] at h; simp at h
      | some out' =>
        rw [h2] at h
        simp only [Option.some.injEq] at h
        subst h
        obtain ⟨r0, d0, hrd0⟩ := hex tid (List.mem_cons_self tid rest)
        have hone := resolveOne_specRes pm corpus cache tid hc r0 d0 hrd0 rd0 cache' h1
        rcases List.mem_cons.mp hmem with heq | hmem'
        · rw [Prod.mk.injEq] at heq
          obtain ⟨he1, he2⟩ := heq
          subst he1; subst he2
          exact hone.1
        · exact ih cache' hone.2 (fun u hu => hex u (List.mem_cons_of_mem _ hu)) out' h2 t rd hmem'

theorem computeThreadMetadata_char (corpus : List String) (pm : List (String × String))
    (hacyc : AcyclicParents corpus pm)
    (results : List (String × (String × Int)))
    (hres : computeThreadMetadata corpus pm = some results)
    (tid root : String) (depth : Int)
    (hlook : alookup results tid = some (root, depth)) :
    (depth = 0 ↔ root = tid) ∧
    (pEff pm tid = none → root = tid ∧ depth = 0) ∧
    (∀ p, pEff pm tid = some p → p ∉ corpus → root = p ∧ depth = 1) ∧
    (∀ p, pEff pm tid = some p → p ∈ corpus →
      ∃ rootP depthP, alookup results p = some (rootP, depthP) ∧
        root = rootP ∧ depth = depthP + 1) := by
  have hkeys : results.map Prod.fst = corpus :=
    resolveAllGo_keys pm corpus corpus [] results hres
  have hex : ∀ t ∈ corpus, ∃ r d, SpecRes corpus pm t r d := by
    intro t ht
    obtain ⟨⟨r, d⟩, hv⟩ := Option.isSome_iff_exists.mp (hacyc t ht)
    exact ⟨r, d, corpus.length + 1, hv⟩
  have hcempty : CacheOK corpus pm [] := fun k r d hk => by simp [alookup] at hk
  have hall : ∀ t rd, (t, rd) ∈ results → SpecRes corpus pm t rd.1 rd.2 :=
    resolveAllGo_specRes pm corpus corpus [] hcempty hex results hres
  have hmemres : (tid, (root, depth)) ∈ results := alookup_mem results tid (root, depth) hlook
  have htidc : tid ∈ corpus := by
    rw [← hkeys]
    exact List.mem_map.mpr ⟨(tid, (root, depth)), hmemres, rfl⟩
  have hspec : SpecRes corpus pm tid root depth := hall tid (root, depth) hmemres
  obtain ⟨f, hf⟩ := id hspec
  cases f with
  | zero => simp [specResolve] at hf
  | succ f' =>
    cases hp : pEff pm tid with
    | none =>
      rw [specResolve_succ_none corpus pm f' tid hp] at hf
      simp only [Option.some.injEq, Prod.mk.injEq] at hf
      obtain ⟨hrt, hdz⟩ := hf
      refine ⟨?_, fun _ => ⟨hrt.symm, hdz.symm⟩, ?_, ?_⟩
      · constructor
        · intro _; exact hrt.symm
        · intro _; exact hdz.symm
      · intro p hp'
        simp at hp'
      · intro p hp'
        simp at hp'
    | some p =>
      by_cases hpc : p ∈ corpus
      · rw [specResolve_succ_mem corpus pm f' tid p hp hpc] at hf
        cases hrec : specResolve corpus pm f' p with
        | none => rw [hrec] at hf; simp at hf
        | some w =>
          obtain ⟨wr, wd⟩ := w
          rw [hrec] at hf
          simp only [Option.map_some', Option.some.injEq, Prod.mk.injEq] at hf
          obtain ⟨hwr, hwd⟩ := hf
          have hpmem : p ∈ results.map Prod.fst := by rw [hkeys]; exact hpc
          have hps : (alookup results p).isSome :=
            (alookup_isSome_iff_mem results p).mpr hpmem
          obtain ⟨⟨rp, dp⟩, hplook⟩ := Option.isSome_iff_exists.mp hps
          have hpspec : SpecRes corpus pm p rp dp :=
            hall p (rp, dp) (alookup_mem results p (rp, dp) hplook)
          have hfun := specRes_functional corpus pm p wr rp wd dp ⟨f', hrec⟩ hpspec
          have hwdn : 0 ≤ wd := specRes_nonneg corpus pm f' p wr wd hrec
          have hdepth : depth = dp + 1 := by
            rw [← hwd, ← hfun.2]
          have hroot : root = rp := by rw [← hwr, hfun.1]
          refine ⟨?_, ?_, ?_, ?_⟩
          · constructor
            · intro h0; exfalso; omega
            · intro hrt
              exfalso
              have hrc : root ∈ corpus := hrt ▸ htidc
              have hpe := specRes_root_in_corpus corpus pm (f' + 1) tid root depth
                (by
                  rw [specResolve_succ_mem corpus pm f' tid p hp hpc, hrec]
                  simp only [Option.map_some', Option.some.injEq, Prod.mk.injEq]
                  exact ⟨hwr, hwd⟩) hrc
              rw [hrt, hp] at hpe
              simp at hpe
          · intro h0
            simp at h0
          · intro q hq hqnc
            simp only [Option.some.injEq] at hq
            subst hq
            exact absurd hpc hqnc
          · intro q hq hqc
            simp only [Option.some.injEq] at hq
            subst hq
            exact ⟨rp, dp, hplook, hroot, hdepth⟩
      · rw [specResolve_succ_ext corpus pm f' tid p hp hpc] at hf
        simp only [Option.some.injEq, Prod.mk.injEq] at hf
        obtain ⟨hrp, hd1⟩ := hf
        refine ⟨?_, ?_, ?_, ?_⟩
        · constructor
          · intro h0; exfalso; omega
          · intro hrt
            exfalso
            apply hpc
            rw [hrp, hrt]
            exact htidc
        · intro h0
          simp at h0
        · intro q hq hqnc
          simp only [Option.some.injEq] at hq
          subst hq
          exact ⟨hrp.symm, hd1.symm⟩
        · intro q hq hqc
          simp only [Option.some.injEq] at hq
          subst hq
          exact absurd hqc hpc

theorem alookup_eq_of_mem_of_nodup {α β : Type} [DecidableEq α]
    (l : List (α × β)) (hnodup : (l.map Prod.fst).Nodup)
    (k : α) (v : β) (h : (k, v) ∈ l) : alookup l k = some v := by
  induction l with
  | nil => simp at h
  | cons p rest ih =>
    simp only [List.map_cons, List.nodup_cons] at hnodup
    rcases List.mem_cons.mp h with h1 | h1
    · subst h1; simp [alookup]
    · have hk : k ≠ p.1 := by
        intro he
        exact hnodup.1 (he ▸ List.mem_map_of_mem Prod.fst h1)
      simp only [alookup, if_neg hk]
      exact ih hnodup.2 h1

theorem countP_assoc_eq {β : Type} (res : List (String × β))
    (hnodup : (res.map Prod.fst).Nodup) (Q : String → β → Bool) :
    (res.filter (fun p => Q p.1 p.2)).length =
      ((res.map Prod.fst).filter
        (fun t => ((alookup res t).map (Q t)).getD false)).length := by
  induction res with
  | nil => simp
  | cons p rest ih =>
    obtain ⟨k, v⟩ := p
    simp only [List.map_cons, List.nodup_cons] at hnodup
    have hrest : (rest.filter (fun p => Q p.1 p.2)).length =
        ((rest.map Prod.fst).filter
          (fun t => ((alookup rest t).map (Q t)).getD false)).length := ih hnodup.2
    have hcong : (rest.map Prod.fst).filter
          (fun t => ((alookup ((k, v) :: rest) t).map (Q t)).getD false) =
        (rest.map Prod.fst).filter
          (fun t => ((alookup rest t).map (Q t)).getD false) := by
      apply List.filter_congr
      intro t ht
      have hk : ¬t = k := fun he => hnodup.1 (he ▸ ht)
      simp [alookup, hk]
    by_cases hq : Q k v
    · simp only [List.map_cons, List.filter_cons]
      rw [hcong]
      simp [alookup, hq, hrest]
    · simp only [List.map_cons, List.filter_cons]
      rw [hcong]
      simp [alookup, hq, hrest]

theorem buildTweetLookup_go_nodup (rows : List PostRow) :
    ∀ m : List (String × Int), (m.map Prod.fst).Nodup →
      ((rows.foldl (fun m r =>
        if (alookup m r.id).isSome then m else m ++ [(r.id, r.ls_index)]) m).map
          Prod.fst).Nodup := by
  induction rows with
  | nil => intro m hm; simpa using hm
  | cons r rest ih =>
    intro m hm
    simp only [List.foldl_cons]
    by_cases h : (alookup m r.id).isSome
    · rw [if_pos h]; exact ih m hm
    · rw [if_neg h]
      apply ih
      rw [List.map_append]
      apply List.Nodup.append hm (by simp)
      intro x hx hx2
      simp only [List.map_cons, List.map_nil, List.mem_singleton] at hx2
      subst hx2
      rw [← alookup_isSome_iff_mem] at hx
      exact h hx

theorem buildTweetLookup_keys_nodup (rows : List PostRow) :
    ((buildTweetLookup rows).map Prod.fst).Nodup :=
  buildTweetLookup_go_nodup rows [] (by simp)

/-- The thread-size consistency of `_build_node_stats_df` over any edges
table and any id lookup with distinct keys. -/
theorem computeNodeStats_thread_size (edges : List Edge)
    (lookup : List (String × Int)) (stats : List NodeRow)
    (hnodup : (lookup.map Prod.fst).Nodup)
    (h : computeNodeStats edges lookup = some stats) :
    ∀ row ∈ stats,
      row.thread_size =
        ((stats.filter (fun n => n.thread_root_id = row.thread_root_id)).length : Int) ∧
      (stats.filter (fun n => n.tweet_id = row.tweet_id)).length = 1 := by
  unfold computeNodeStats at h
  dsimp only at h
  set acc := edges.foldl (statsStep lookup) emptyStatsAcc with hacc
  cases hmeta : computeThreadMetadata (lookup.map (fun p => p.1)) acc.parentMap with
  | none => rw [hmeta] at h; simp at h
  | some results =>
    rw [hmeta] at h
    simp only [Option.some.injEq] at h
    have hkeys : results.map Prod.fst = lookup.map (fun p => p.1) :=
      resolveAllGo_keys acc.parentMap (lookup.map (fun p => p.1)) _ [] results
        (by unfold computeThreadMetadata at hmeta; exact hmeta)
    have hresnodup : (results.map Prod.fst).Nodup := by rw [hkeys]; exact hnodup
    intro row hrow
    rw [← h] at hrow
    simp only [List.mem_map] at hrow
    obtain ⟨p, hp, hrowp⟩ := hrow
    have htid : p.1 ∈ results.map Prod.fst := by
      rw [hkeys]
      exact List.mem_map_of_mem (fun p => p.1) hp
    have hsome : (alookup results p.1).isSome :=
      (alookup_isSome_iff_mem results p.1).mpr htid
    cases hrd : alookup results p.1 with
    | none => rw [hrd] at hsome; simp at hsome
    | some rd =>
      have hroot : row.thread_root_id = rd.1 := by
        rw [← hrowp]; simp [nodeRowOf, hrd]
      have hsize : row.thread_size = threadSizeOfRoot results rd.1 := by
        rw [← hrowp]; simp [nodeRowOf, hrd]
      have htweet : row.tweet_id = p.1 := by rw [← hrowp]; simp [nodeRowOf]
      constructor
      · rw [hsize, hroot, ← h]
        unfold threadSizeOfRoot
        rw [countP_assoc_eq results hresnodup (fun _ v => v.1 = rd.1), hkeys]
        rw [List.filter_map, List.length_map, List.filter_map, List.length_map]
        refine congrArg (fun n : Nat => (n : Int)) (congrArg List.length ?_)
        apply List.filter_congr
        intro q hq
        have hq1 : q.1 ∈ results.map Prod.fst := by
          rw [hkeys]; exact List.mem_map_of_mem (fun p => p.1) hq
        have hq2 : (alookup results q.1).isSome :=
          (alookup_isSome_iff_mem results q.1).mpr hq1
        cases hrdq : alookup results q.1 with
        | none => rw [hrdq] at hq2; simp at hq2
        | some rdq => simp [nodeRowOf, hrdq]
      · rw [← h, htweet]
        have h1 : ((lookup.map (fun q => q.1)).filter (fun t => t = p.1)).length = 1 := by
          have hmem : p.1 ∈ lookup.map (fun q => q.1) :=
            List.mem_map_of_mem (fun p => p.1) hp
          have hnd : (lookup.map (fun q => q.1)).Nodup := hnodup
          rw [← List.countP_eq_length_filter]
          have := List.count_eq_one_of_mem hnd hmem
          simpa [List.count] using this
        rw [List.filter_map, List.length_map]
        rw [List.filter_map, List.length_map] at h1
        apply Eq.trans _ h1
        refine congrArg List.length ?_
        apply List.filter_congr
        intro q hq
        simp [nodeRowOf]

/-! ## Claim theorems -/

/-- **C2** — Cycle-safe termination: for every parent map (including cyclic
ones such as `A → B → A`), every corpus, every post id, and every memo
cache whose recorded depths are non-negative, `_resolve` (the iterative
upward walk with its per-call visited set, run with the fuel bound the
model derives from the corpus size) terminates with a result, and the
returned thread depth is a non-negative integer. -/
theorem thread_resolution_terminates_with_nonneg_depth
    (pm : List (String × String)) (corpus : List String)
    (cache : List (String × (String × Int))) (tid : String)
    (hc : CacheNonneg cache) :
    ∃ root depth cache', resolveOne pm corpus cache tid = some ((root, depth), cache') ∧
      0 ≤ depth := by
  have hs := resolveOne_isSome pm corpus cache tid
  cases h : resolveOne pm corpus cache tid with
  | none => rw [h] at hs; simp at hs
  | some out =>
    obtain ⟨⟨root, depth⟩, cache'⟩ := out
    have := resolveOne_nonneg pm corpus cache tid hc (root, depth) cache' h
    exact ⟨root, depth, cache', rfl, this.1⟩

/-- Witness for C2 at the spec's cyclic example `A → B → A`, resolving from
an empty cache. -/
theorem thread_resolution_terminates_with_nonneg_depth_witness :
    ∃ root depth cache',
      resolveOne [("A", "B"), ("B", "A")] ["A", "B"] [] "A" =
        some ((root, depth), cache') ∧ 0 ≤ depth :=
  thread_resolution_terminates_with_nonneg_depth [("A", "B"), ("B", "A")]
    ["A", "B"] [] "A" (fun k r d h => by simp [alookup] at h)

/-- **C3** — Thread-size consistency: in the node-stats output of any
build, every row's `thread_size` equals the number of node-stats rows
whose `thread_root_id` equals that row's `thread_root_id`; hence
`thread_size ≥ 1`, and each post has exactly one node-stats row (so
exactly one `thread_root_id`). -/
theorem node_stats_thread_size_consistent (rows : List InputRow)
    (scopeRestricted incremental : Bool) (changed : List (Option String))
    (prior : Option (List RawEdge)) (result : BuildResult)
    (h : buildLinksCore rows scopeRestricted incremental changed prior = some result) :
    ∀ row ∈ result.nodeStats,
      row.thread_size =
        ((result.nodeStats.filter
          (fun n => n.thread_root_id = row.thread_root_id)).length : Int) ∧
      1 ≤ row.thread_size ∧
      (result.nodeStats.filter (fun n => n.tweet_id = row.tweet_id)).length = 1 := by
  obtain ⟨he, hcs, hrest⟩ :=
    buildLinksCore_some_elim rows scopeRestricted incremental changed prior result h
  intro row hrow
  have hmain := computeNodeStats_thread_size result.edges _ result.nodeStats
    (buildTweetLookup_keys_nodup (prepareSourceRows rows)) hcs row hrow
  refine ⟨hmain.1, ?_, hmain.2⟩
  rw [hmain.1]
  have hmem : row ∈ result.nodeStats.filter
      (fun n => n.thread_root_id = row.thread_root_id) :=
    List.mem_filter.mpr ⟨hrow, by simp⟩
  have hlen : 0 < (result.nodeStats.filter
      (fun n => n.thread_root_id = row.thread_root_id)).length :=
    List.length_pos.mpr (fun hnil => by rw [hnil] at hmem; simp at hmem)
  exact_mod_cast hlen

/-- **C1** — Incremental merge equals full rebuild (Scenario C): after a
full rebuild of the three-post corpus, the source data gains the reply
edge `"3" → "2"`; running the build with `incremental = True`,
`changed_tweet_ids = ["3"]` and no scope restriction yields node stats
for post `"2"` (`reply_in_count`, `reply_child_count`) and post `"3"`
(`reply_out_count`, `thread_depth`) identical to those of a from-scratch
full rebuild on the updated data (both are `(1, 1)` and `(1, 2)`). -/
theorem scenarioC_incremental_matches_full_rebuild :
    ((buildLinksCore scenCRows1 false true [some "3"] (some scenCPrior)).map
      (fun r => ((r.nodeStats.find? (fun n => n.tweet_id = "2")).map
          (fun n => (n.reply_in_count, n.reply_child_count)),
        (r.nodeStats.find? (fun n => n.tweet_id = "3")).map
          (fun n => (n.reply_out_count, n.thread_depth))))) =
      some (some ((1 : Int), (1 : Int)), some ((1 : Int), (2 : Int))) ∧
    ((buildLinksCore scenCRows1 false false [] none).map
      (fun r => ((r.nodeStats.find? (fun n => n.tweet_id = "2")).map
          (fun n => (n.reply_in_count, n.reply_child_count)),
        (r.nodeStats.find? (fun n => n.tweet_id = "3")).map
          (fun n => (n.reply_out_count, n.thread_depth))))) =
      some (some ((1 : Int), (1 : Int)), some ((1 : Int), (2 : Int))) := by
  exact ⟨by decide, by decide⟩

/-- **C7** — Incremental safety fallback: when an incremental build is
requested (non-empty changed set, no scope restriction) and the prior
edges artifact is non-empty but canonicalizes to an empty table, the
build prints the fallback warning, does not use the incremental path,
and produces exactly the edges and node stats of a full rebuild from
every in-corpus source post; the build still returns normally. -/
theorem incremental_fallback_is_full_rebuild (rows : List InputRow)
    (changed : List (Option String)) (raw : List RawEdge)
    (hraw : raw ≠ []) (hcanon : canonicalizeEdges raw = [])
    (hchanged : (changed.filterMap normalizeTweetId).dedup ≠ []) :
    ∃ rFb rFull,
      buildLinksCore rows false true changed (some raw) = some rFb ∧
      buildLinksCore rows false false [] none = some rFull ∧
      rFb.fallbackWarning = true ∧ rFb.incremental = false ∧
      rFb.incremental_requested = true ∧
      rFb.edges = rFull.edges ∧ rFb.nodeStats = rFull.nodeStats := by
  have hs1 := buildLinksCore_isSome rows false true changed (some raw)
  have hs2 := buildLinksCore_isSome rows false false [] none
  cases hb1 : buildLinksCore rows false true changed (some raw) with
  | none => rw [hb1] at hs1; simp at hs1
  | some rFb =>
    cases hb2 : buildLinksCore rows false false [] none with
    | none => rw [hb2] at hs2; simp at hs2
    | some rFull =>
      obtain ⟨he1, hcs1, hinc1, hwarn1, hreq1⟩ :=
        buildLinksCore_some_elim rows false true changed (some raw) rFb hb1
      obtain ⟨he2, hcs2, hinc2, hwarn2, hreq2⟩ :=
        buildLinksCore_some_elim rows false false [] none rFull hb2
      have hreq : (true && !((changed.filterMap normalizeTweetId).dedup).isEmpty &&
          !false) = true := by
        simp [List.isEmpty_iff, hchanged]
      have hsel1 : selectEdges (prepareSourceRows rows)
          (buildTweetLookup (prepareSourceRows rows))
          ((changed.filterMap normalizeTweetId).dedup)
          (true && !((changed.filterMap normalizeTweetId).dedup).isEmpty && !false)
          (some raw) =
          (buildEdgesForSources (prepareSourceRows rows)
            (buildTweetLookup (prepareSourceRows rows)), false, true) := by
        have h1 : raw.isEmpty = false := by
          cases raw with
          | nil => exact absurd rfl hraw
          | cons a l => rfl
        unfold selectEdges
        rw [hreq]
        simp [h1, hcanon]
      have hsel2 : selectEdges (prepareSourceRows rows)
          (buildTweetLookup (prepareSourceRows rows))
          (((List.filterMap normalizeTweetId []).dedup))
          (false && !((List.filterMap normalizeTweetId []).dedup).isEmpty && !false)
          none =
          (buildEdgesForSources (prepareSourceRows rows)
            (buildTweetLookup (prepareSourceRows rows)), false, false) := rfl
      rw [hsel1] at he1 hinc1 hwarn1
      rw [hsel2] at he2 hinc2 hwarn2
      have hedges : rFb.edges = rFull.edges := by rw [he1, he2]
      refine ⟨rFb, rFull, rfl, rfl, hwarn1, hinc1, ?_, hedges, ?_⟩
      · rw [hreq1, hreq]
      · rw [hedges] at hcs1
        rw [hcs1] at hcs2
        exact (Option.some.injEq _ _ ▸ hcs2).symm ▸ rfl

/-- Witness for C7: a junk prior artifact (`edge_kind = "banana"`) that
canonicalizes to empty triggers the warning-and-full-rebuild path. -/
theorem incremental_fallback_is_full_rebuild_witness :
    ∃ rFb rFull,
      buildLinksCore scenCRows1 false true [some "3"] (some [junkRawEdge]) = some rFb ∧
      buildLinksCore scenCRows1 false false [] none = some rFull ∧
      rFb.fallbackWarning = true ∧ rFb.incremental = false ∧
      rFb.incremental_requested = true ∧
      rFb.edges = rFull.edges ∧ rFb.nodeStats = rFull.nodeStats :=
  incremental_fallback_is_full_rebuild scenCRows1 [some "3"] [junkRawEdge]
    (by decide) (by decide) (by decide)

theorem dedupKeepLast_subset (l : List Edge) (e : Edge)
    (h : e ∈ dedupKeepLast l) : e ∈ l := by
  induction l with
  | nil => simp [dedupKeepLast] at h
  | cons a rest ih =>
    unfold dedupKeepLast at h
    by_cases hc : rest.any (fun e2 => edgeKey e2 = edgeKey a)
    · rw [if_pos hc] at h
      exact List.mem_cons_of_mem a (ih h)
    · rw [if_neg hc] at h
      rcases List.mem_cons.mp h with h1 | h1
      · exact h1 ▸ List.mem_cons_self a rest
      · exact List.mem_cons_of_mem a (ih h1)

theorem str_ne_empty_of_data_ne (s : String) (h : s.data ≠ []) : s ≠ "" :=
  fun hs => h (by rw [hs])

theorem normalizeTweetId_some_ne_empty (v : Option String) (s : String)
    (h : normalizeTweetId v = some s) : s ≠ "" := by
  unfold normalizeTweetId at h
  dsimp only at h
  by_cases ht : asText v = ""
  · rw [if_pos ht] at h
    exact absurd h (by simp)
  · rw [if_neg ht] at h
    by_cases hf : (pyEndsWith (asText v) ".0" &&
        pyIsDigitStr (strDropRight (asText v) 2)) = true
    · rw [if_pos hf] at h
      simp only [Option.some.injEq] at h
      subst h
      rw [Bool.and_eq_true] at hf
      have hd := hf.2
      unfold pyIsDigitStr at hd
      rw [Bool.and_eq_true] at hd
      apply str_ne_empty_of_data_ne
      intro hnil
      have := hd.1
      rw [hnil] at this
      simp at this
    · rw [if_neg hf] at h
      simp only [Option.some.injEq] at h
      subst h
      exact ht

theorem rowCanon_valid (e : RawEdge) (out : Edge) (h : rowCanon e = some out) :
    (out.edge_kind = "reply" ∨ out.edge_kind = "quote") ∧
    out.src_tweet_id ≠ "" ∧ out.dst_tweet_id ≠ "" := by
  unfold rowCanon at h
  dsimp only at h
  set k := pyLower (asText (if asText e.edge_kind = "" then
    some (pyLower (asText e.edge_type)) else e.edge_kind)) with hkdef
  by_cases hkind : k = "reply" ∨ k = "quote"
  · rw [if_pos hkind] at h
    cases hsrc : normalizeTweetId e.src_tweet_id with
    | none => rw [hsrc] at h; exact absurd h (by simp)
    | some src =>
      cases hdst : normalizeTweetId e.dst_tweet_id with
      | none => rw [hsrc, hdst] at h; exact absurd h (by simp)
      | some dst =>
        rw [hsrc, hdst] at h
        simp only [Option.some.injEq] at h
        subst h
        exact ⟨hkind, normalizeTweetId_some_ne_empty _ _ hsrc,
          normalizeTweetId_some_ne_empty _ _ hdst⟩
  · rw [if_neg hkind] at h
    exact absurd h (by simp)

theorem canonicalizeEdges_valid (raws : List RawEdge) (e : Edge)
    (h : e ∈ canonicalizeEdges raws) :
    (e.edge_kind = "reply" ∨ e.edge_kind = "quote") ∧
    e.src_tweet_id ≠ "" ∧ e.dst_tweet_id ≠ "" := by
  unfold canonicalizeEdges at h
  have h2 := dedupKeepLast_subset _ _ h
  obtain ⟨raw, hraw, hrc⟩ := List.mem_filterMap.mp h2
  exact rowCanon_valid raw e hrc

theorem buildEdgesForSources_valid (rows : List PostRow)
    (lookup : List (String × Int)) (e : Edge)
    (h : e ∈ buildEdgesForSources rows lookup) :
    (e.edge_kind = "reply" ∨ e.edge_kind = "quote") ∧
    e.src_tweet_id ≠ "" ∧ e.dst_tweet_id ≠ "" := by
  unfold buildEdgesForSources at h
  exact canonicalizeEdges_valid _ _ h

theorem selectEdges_valid (sourceRows : List PostRow)
    (lookup : List (String × Int)) (changedNorm : List String)
    (req : Bool) (prior : Option (List RawEdge)) (e : Edge)
    (h : e ∈ (selectEdges sourceRows lookup changedNorm req prior).1) :
    (e.edge_kind = "reply" ∨ e.edge_kind = "quote") ∧
    e.src_tweet_id ≠ "" ∧ e.dst_tweet_id ≠ "" := by
  unfold selectEdges at h
  cases prior with
  | none =>
    dsimp only at h
    exact buildEdgesForSources_valid _ _ _ h
  | some raw =>
    dsimp only at h
    by_cases hreq : req = true
    · rw [if_pos hreq] at h
      by_cases hempty : (!raw.isEmpty && (canonicalizeEdges raw).isEmpty) = true
      · rw [if_pos hempty] at h
        exact buildEdgesForSources_valid _ _ _ h
      · rw [if_neg hempty] at h
        split at h
        · exact canonicalizeEdges_valid _ _ h
        · have := List.mem_filter.mp h
          exact canonicalizeEdges_valid _ _ this.1
    · rw [if_neg hreq] at h
      exact buildEdgesForSources_valid _ _ _ h

theorem buildTweetLookup_mem_rows (rows : List PostRow) (k : String)
    (h : (alookup (buildTweetLookup rows) k).isSome) :
    ∃ r ∈ rows, r.id = k := by
  unfold buildTweetLookup at h
  suffices hgen : ∀ m : List (String × Int),
      (alookup (rows.foldl (fun m r =>
        if (alookup m r.id).isSome then m else m ++ [(r.id, r.ls_index)]) m) k).isSome →
      (alookup m k).isSome ∨ ∃ r ∈ rows, r.id = k by
    rcases hgen [] h with h1 | h1
    · simp [alookup] at h1
    · exact h1
  clear h
  induction rows with
  | nil => intro m h; exact Or.inl h
  | cons r rest ih =>
    intro m h
    simp only [List.foldl_cons] at h
    by_cases hp : (alookup m r.id).isSome
    · rw [if_pos hp] at h
      rcases ih m h with h1 | h1
      · exact Or.inl h1
      · right
        obtain ⟨r2, hr2, hid⟩ := h1
        exact ⟨r2, List.mem_cons_of_mem r hr2, hid⟩
    · rw [if_neg hp] at h
      rcases ih _ h with h1 | h1
      · rw [alookup_append] at h1
        cases hm : alookup m k with
        | some v => exact Or.inl (by simp [hm])
        | none =>
          rw [hm] at h1
          simp only at h1
          by_cases hk : k = r.id
          · exact Or.inr ⟨r, List.mem_cons_self r rest, hk.symm⟩
          · rw [alookup_eq_none_of_not_mem _ _ (by simpa using hk)] at h1
            simp at h1
      · right
        obtain ⟨r2, hr2, hid⟩ := h1
        exact ⟨r2, List.mem_cons_of_mem r hr2, hid⟩

/-! ## Lemmas: `str.strip` idempotence and fixed points of id normalization -/

theorem dropWhile_head?_false (p : Char → Bool) (l : List Char) :
    ∀ x, (l.dropWhile p).head? = some x → p x = false := by
  induction l with
  | nil => intro x h; simp [List.dropWhile] at h
  | cons c rest ih =>
    intro x h
    rw [List.dropWhile_cons] at h
    by_cases hc : p c
    · rw [if_pos hc] at h; exact ih x h
    · rw [if_neg hc] at h
      simp only [List.head?_cons, Option.some.injEq] at h
      subst h
      exact Bool.eq_false_iff.mpr hc

theorem dropWhile_of_head?_false (p : Char → Bool) (l : List Char)
    (h : ∀ x, l.head? = some x → p x = false) : l.dropWhile p = l := by
  cases l with
  | nil => rfl
  | cons c rest =>
    rw [List.dropWhile_cons, if_neg (by simp [h c rfl])]

theorem dropWhile_append_exists (p : Char → Bool) (l : List Char) :
    ∃ t, t ++ l.dropWhile p = l := by
  induction l with
  | nil => exact ⟨[], rfl⟩
  | cons c rest ih =>
    by_cases hc : p c
    · obtain ⟨t, ht⟩ := ih
      refine ⟨c :: t, ?_⟩
      rw [List.dropWhile_cons, if_pos hc]
      simpa using ht
    · exact ⟨[], by rw [List.dropWhile_cons, if_neg hc]; rfl⟩

theorem pyStrip_idem (s : String) : pyStrip (pyStrip s) = pyStrip s := by
  unfold pyStrip
  dsimp only
  congr 1
  set l1 := s.data.dropWhile pyIsSpace with hl1
  set d := l1.reverse.dropWhile pyIsSpace with hd
  have hA : d.reverse.dropWhile pyIsSpace = d.reverse := by
    apply dropWhile_of_head?_false
    intro x hx
    obtain ⟨t, ht⟩ := dropWhile_append_exists pyIsSpace l1.reverse
    have hl : d.reverse ++ t.reverse = l1 := by
      have := congrArg List.reverse ht
      simpa [List.reverse_append] using this
    apply dropWhile_head?_false pyIsSpace s.data x
    rw [← hl1, ← hl]
    cases hdr : d.reverse with
    | nil => rw [hdr] at hx; simp at hx
    | cons y ys =>
      rw [hdr] at hx
      simp only [List.head?_cons, Option.some.injEq] at hx
      subst hx
      simp
  rw [hA]
  have hB : d.dropWhile pyIsSpace = d := by
    apply dropWhile_of_head?_false
    intro x hx
    exact dropWhile_head?_false pyIsSpace l1.reverse x (hd ▸ hx)
  rw [List.reverse_reverse, hB]

theorem asText_some_asText (v : Option String) :
    asText (some (asText v)) = asText v := by
  cases v with
  | none => decide
  | some s => exact pyStrip_idem s

theorem dropWhile_all_false (p : Char → Bool) (l : List Char)
    (h : ∀ c ∈ l, p c = false) : l.dropWhile p = l := by
  cases l with
  | nil => rfl
  | cons c rest => rw [List.dropWhile_cons, if_neg (by simp [h c (by simp)])]

theorem pyStrip_no_space (s : String)
    (h : ∀ c ∈ s.data, pyIsSpace c = false) : pyStrip s = s := by
  unfold pyStrip
  rw [dropWhile_all_false _ _ h]
  rw [dropWhile_all_false _ _ (fun c hc => h c (List.mem_reverse.mp hc))]
  cases s with
  | mk d => simp

theorem digit_not_space (c : Char) (h1 : 48 ≤ c.toNat) (h2 : c.toNat ≤ 57) :
    pyIsSpace c = false := by
  apply Bool.eq_false_iff.mpr
  intro habs
  unfold pyIsSpace at habs
  simp only [Bool.or_eq_true, Bool.and_eq_true, decide_eq_true_eq, beq_iff_eq] at habs
  omega

theorem pyStrip_of_all_digits (s : String) (h : pyIsDigitStr s = true) :
    pyStrip s = s := by
  unfold pyIsDigitStr at h
  rw [Bool.and_eq_true] at h
  apply pyStrip_no_space
  intro c hc
  have := List.all_eq_true.mp h.2 c hc
  rw [Bool.and_eq_true] at this
  exact digit_not_space c (by simpa using this.1) (by simpa using this.2)

theorem pyEndsWith_dot_zero_mem (s : String)
    (h : pyEndsWith s ".0" = true) : '.' ∈ s.data := by
  unfold pyEndsWith at h
  cases hrev : s.data.reverse with
  | nil => rw [hrev] at h; simp [listStartsWith] at h
  | cons c rest =>
    rw [hrev] at h
    cases rest with
    | nil => simp [listStartsWith] at h
    | cons c2 rest2 =>
      simp only [listStartsWith, Bool.and_eq_true, decide_eq_true_eq] at h
      have hc2 : c2 ∈ s.data := by
        rw [← List.mem_reverse, hrev]
        simp
      rw [← h.2.1] at hc2
      exact hc2

theorem pyEndsWith_dot_zero_of_digits (s : String)
    (hdig : ∀ c ∈ s.data, (48 ≤ c.toNat && c.toNat ≤ 57) = true) :
    pyEndsWith s ".0" = false := by
  apply Bool.eq_false_iff.mpr
  intro habs
  have := hdig '.' (pyEndsWith_dot_zero_mem s habs)
  simp at this

theorem normalizeTweetId_idem (v : Option String) (s : String)
    (h : normalizeTweetId v = some s) : normalizeTweetId (some s) = some s := by
  have hne : s ≠ "" := normalizeTweetId_some_ne_empty v s h
  unfold normalizeTweetId at h ⊢
  dsimp only at h ⊢
  by_cases ht : asText v = ""
  · rw [if_pos ht] at h
    exact absurd h (by simp)
  · rw [if_neg ht] at h
    by_cases hf : (pyEndsWith (asText v) ".0" &&
        pyIsDigitStr (strDropRight (asText v) 2)) = true
    · rw [if_pos hf] at h
      simp only [Option.some.injEq] at h
      subst h
      have hdig : pyIsDigitStr (strDropRight (asText v) 2) = true := by
        rw [Bool.and_eq_true] at hf
        exact hf.2
      have hat : asText (some (strDropRight (asText v) 2)) =
          strDropRight (asText v) 2 := pyStrip_of_all_digits _ hdig
      rw [hat, if_neg hne]
      have hE : pyEndsWith (strDropRight (asText v) 2) ".0" = false := by
        apply pyEndsWith_dot_zero_of_digits
        intro c hc
        unfold pyIsDigitStr at hdig
        rw [Bool.and_eq_true] at hdig
        exact List.all_eq_true.mp hdig.2 c hc
      rw [if_neg (by simp [hE])]
    · rw [if_neg hf] at h
      simp only [Option.some.injEq] at h
      subst h
      rw [asText_some_asText, if_neg ht, if_neg hf]

/-! ## Lemmas: `_make_edge_id` is never blank -/

theorem shaRound_length (st : List Nat) (kw : Nat × Nat) :
    (shaRound st kw).length = st.length := by
  unfold shaRound
  split
  · simp_all
  · rfl

theorem foldl_shaRound_length (l : List (Nat × Nat)) :
    ∀ h : List Nat, (l.foldl (fun acc kw => shaRound acc kw) h).length = h.length := by
  induction l with
  | nil => intro h; rfl
  | cons kw rest ih =>
    intro h
    rw [List.foldl_cons, ih, shaRound_length]

theorem shaBlock_length (h : List Nat) (block : List Nat) :
    (shaBlock h block).length = h.length := by
  unfold shaBlock
  rw [List.length_map, List.length_zip, foldl_shaRound_length]
  exact Nat.min_self _

theorem foldl_shaBlock_length (blocks : List (List Nat)) :
    ∀ h : List Nat, (blocks.foldl shaBlock h).length = h.length := by
  induction blocks with
  | nil => intro h; rfl
  | cons b rest ih =>
    intro h
    rw [List.foldl_cons, ih, shaBlock_length]

theorem sha256_ne_nil (msg : List Nat) : sha256 msg ≠ [] := by
  unfold sha256
  dsimp only
  have hlen : ((chunk64 (shaPad msg)).foldl shaBlock shaH0).length = 8 :=
    foldl_shaBlock_length _ shaH0
  cases hfin : (chunk64 (shaPad msg)).foldl shaBlock shaH0 with
  | nil => rw [hfin] at hlen; simp at hlen
  | cons w rest =>
    simp

theorem sha256_bytes_lt (msg : List Nat) : ∀ b ∈ sha256 msg, b < 256 := by
  intro b hb
  unfold sha256 at hb
  simp only [List.mem_flatMap] at hb
  obtain ⟨w, _, hb2⟩ := hb
  simp only [List.mem_cons, List.mem_singleton, List.not_mem_nil, or_false] at hb2
  rcases hb2 with h | h | h | h <;>
    exact h ▸ Nat.mod_lt _ (by norm_num)

theorem hexChar_not_space : ∀ n < 16, pyIsSpace (hexChar n) = false := by decide

theorem makeEdgeId_data_not_space (a b k p : String) :
    ∀ c ∈ (makeEdgeId a b k p).data, pyIsSpace c = false := by
  intro c hc
  unfold makeEdgeId strTake hexdigest at hc
  dsimp only at hc
  have hc2 := List.mem_of_mem_take hc
  simp only [List.mem_flatMap] at hc2
  obtain ⟨byte, hbyte, hcb⟩ := hc2
  have hlt := sha256_bytes_lt _ byte hbyte
  unfold byteToHex at hcb
  simp only [List.mem_cons, List.mem_singleton, List.not_mem_nil, or_false] at hcb
  rcases hcb with h | h
  · exact h ▸ hexChar_not_space (byte / 16) (Nat.div_lt_of_lt_mul (by omega))
  · exact h ▸ hexChar_not_space (byte % 16) (Nat.mod_lt _ (by norm_num))

theorem makeEdgeId_data_ne_nil (a b k p : String) :
    (makeEdgeId a b k p).data ≠ [] := by
  unfold makeEdgeId strTake hexdigest
  dsimp only
  cases hs : sha256 (utf8Encode (a ++ "|" ++ b ++ "|" ++ k ++ "|" ++ p)) with
  | nil => exact absurd hs (sha256_ne_nil _)
  | cons byte rest =>
    unfold byteToHex
    simp

theorem pyStrip_makeEdgeId (a b k p : String) :
    pyStrip (makeEdgeId a b k p) = makeEdgeId a b k p :=
  pyStrip_no_space _ (makeEdgeId_data_not_space a b k p)

theorem makeEdgeId_ne_empty (a b k p : String) : makeEdgeId a b k p ≠ "" :=
  str_ne_empty_of_data_ne _ (makeEdgeId_data_ne_nil a b k p)

/-! ## Lemmas: extracted status ids are digit strings -/

theorem orElse_eq_some {α : Type} (a b : Option α) (s : α)
    (h : (a <|> b) = some s) : a = some s ∨ b = some s := by
  cases a with
  | none => right; simpa using h
  | some x => left; simpa using h

/-- The property every extracted status id has: non-empty, all ASCII
digits. -/
theorem statusTail_digits (l : List Char) (s : String)
    (h : statusTail l = some s) :
    s.data ≠ [] ∧ ∀ c ∈ s.data, isAsciiDigitChar c = true := by
  unfold statusTail at h
  cases he : eatCI "status/".data l with
  | none => rw [he] at h; simp at h
  | some rest =>
    rw [he] at h
    dsimp only at h
    by_cases hd : (rest.takeWhile isAsciiDigitChar).isEmpty = true
    · rw [if_pos hd] at h; simp at h
    · rw [if_neg hd] at h
      simp only [Option.some.injEq] at h
      subst h
      refine ⟨by simpa [List.isEmpty_iff] using hd, ?_⟩
      intro c hc
      exact List.mem_takeWhile_imp hc

theorem statusAfterHandle_digits (l : List Char) (s : String)
    (h : statusAfterHandle l = some s) :
    s.data ≠ [] ∧ ∀ c ∈ s.data, isAsciiDigitChar c = true := by
  unfold statusAfterHandle at h
  rcases orElse_eq_some _ _ _ h with h1 | h1
  · dsimp only at h1
    split at h1
    · exact statusTail_digits _ _ h1
    · simp at h1
  · exact statusTail_digits _ _ h1

theorem statusPath_digits (l : List Char) (s : String)
    (h : statusPath l = some s) :
    s.data ≠ [] ∧ ∀ c ∈ s.data, isAsciiDigitChar c = true := by
  unfold statusPath at h
  rcases orElse_eq_some _ _ _ h with h1 | h1
  · cases hi : eatCI "i/web/".data l with
    | none => rw [hi] at h1; simp at h1
    | some rest =>
      rw [hi] at h1
      exact statusAfterHandle_digits _ _ h1
  · exact statusAfterHandle_digits _ _ h1

theorem statusAfterHost_digits (l : List Char) (s : String)
    (h : statusAfterHost l = some s) :
    s.data ≠ [] ∧ ∀ c ∈ s.data, isAsciiDigitChar c = true := by
  unfold statusAfterHost at h
  cases hi : eatCI "/".data l with
  | none => rw [hi] at h; simp at h
  | some r6 =>
    rw [hi] at h
    exact statusPath_digits _ _ h

theorem statusAfterWww_digits (l : List Char) (s : String)
    (h : statusAfterWww l = some s) :
    s.data ≠ [] ∧ ∀ c ∈ s.data, isAsciiDigitChar c = true := by
  unfold statusAfterWww at h
  rcases orElse_eq_some _ _ _ h with h1 | h1
  · cases hx : eatCI "x.com".data l with
    | none => rw [hx] at h1; simp at h1
    | some r5 => rw [hx] at h1; exact statusAfterHost_digits _ _ h1
  · cases ht : eatCI "twitter.com".data l with
    | none => rw [ht] at h1; simp at h1
    | some r5 => rw [ht] at h1; exact statusAfterHost_digits _ _ h1

theorem statusAfterScheme_digits (l : List Char) (s : String)
    (h : statusAfterScheme l = some s) :
    s.data ≠ [] ∧ ∀ c ∈ s.data, isAsciiDigitChar c = true := by
  unfold statusAfterScheme at h
  cases hi : eatCI "://".data l with
  | none => rw [hi] at h; simp at h
  | some r3 =>
    rw [hi] at h
    dsimp only at h
    rcases orElse_eq_some _ _ _ h with h1 | h1
    · cases hw : eatCI "www.".data r3 with
      | none => rw [hw] at h1; simp at h1
      | some r4 =>
        rw [hw] at h1
        exact statusAfterWww_digits _ _ h1
    · exact statusAfterWww_digits _ _ h1

theorem statusMatchAt_digits (l : List Char) (s : String)
    (h : statusMatchAt l = some s) :
    s.data ≠ [] ∧ ∀ c ∈ s.data, isAsciiDigitChar c = true := by
  unfold statusMatchAt at h
  cases hi : eatCI "http".data l with
  | none => rw [hi] at h; simp at h
  | some r1 =>
    rw [hi] at h
    dsimp only at h
    rcases orElse_eq_some _ _ _ h with h1 | h1
    · cases hs : eatCI "s".data r1 with
      | none => rw [hs] at h1; simp at h1
      | some r2 =>
        rw [hs] at h1
        exact statusAfterScheme_digits _ _ h1
    · exact statusAfterScheme_digits _ _ h1

theorem statusSearch_digits : ∀ (l : List Char) (s : String),
    statusSearch l = some s →
    s.data ≠ [] ∧ ∀ c ∈ s.data, isAsciiDigitChar c = true := by
  intro l
  induction l with
  | nil => intro s h; simp [statusSearch] at h
  | cons c rest ih =>
    intro s h
    unfold statusSearch at h
    rcases orElse_eq_some _ _ _ h with h1 | h1
    · exact statusMatchAt_digits _ _ h1
    · exact ih s h1

theorem extractStatusId_digits (u : String) (s : String)
    (h : extractStatusId u = some s) :
    s.data ≠ [] ∧ ∀ c ∈ s.data, isAsciiDigitChar c = true :=
  statusSearch_digits u.data s h

theorem normalizeTweetId_digits (s : String) (hne : s.data ≠ [])
    (hdig : ∀ c ∈ s.data, isAsciiDigitChar c = true) :
    normalizeTweetId (some s) = some s := by
  have hdig' : ∀ c ∈ s.data, (48 ≤ c.toNat && c.toNat ≤ 57) = true := by
    intro c hc
    have := hdig c hc
    unfold isAsciiDigitChar at this
    exact this
  have hstrip : pyStrip s = s := by
    apply pyStrip_no_space
    intro c hc
    have := hdig' c hc
    rw [Bool.and_eq_true] at this
    exact digit_not_space c (by simpa using this.1) (by simpa using this.2)
  unfold normalizeTweetId
  dsimp only
  have hat : asText (some s) = s := hstrip
  rw [hat, if_neg (str_ne_empty_of_data_ne s hne),
    if_neg (by simp [pyEndsWith_dot_zero_of_digits s hdig'])]

/-! ## Lemmas: extracted records and their canonical form -/

theorem rowCanon_mkExtractedEdge (kind src dst : String) (srcLs : Int)
    (dstLs : Option Int) (prov : String) (url : Option String)
    (hkind : kind = "reply" ∨ kind = "quote")
    (hsrc : normalizeTweetId (some src) = some src)
    (hdst : normalizeTweetId (some dst) = some dst) :
    rowCanon (mkExtractedEdge kind src dst srcLs dstLs prov url) =
      some { edge_id := makeEdgeId src dst kind prov, edge_kind := kind,
             src_tweet_id := src, dst_tweet_id := dst,
             src_ls_index := some srcLs, dst_ls_index := dstLs,
             internal_target := dstLs.isSome, provenance := prov,
             source_url := url } := by
  have hkk : pyLower (asText (if asText (some kind) = "" then
      some (pyLower (asText (none : Option String))) else some kind)) = kind := by
    rcases hkind with hk | hk <;> subst hk <;> decide
  unfold rowCanon mkExtractedEdge
  dsimp only
  rw [hkk, if_pos hkind, hsrc, hdst]
  dsimp only
  rw [if_neg (by rw [pyStrip_makeEdgeId]; exact makeEdgeId_ne_empty src dst kind prov)]
  rfl

theorem replyStep_good (lookup : List (String × Int)) (src : String)
    (srcLs : Int) (reply : Option String) (acc : ExtractAcc)
    (hsrc : normalizeTweetId (some src) = some src)
    (hacc : ∀ rec ∈ acc.records, GoodRecord rec) :
    ∀ rec ∈ (replyStep lookup src srcLs reply acc).records, GoodRecord rec := by
  intro rec hrec
  unfold replyStep at hrec
  cases hr : normalizeTweetId reply with
  | none => rw [hr] at hrec; exact hacc rec hrec
  | some dst =>
    rw [hr] at hrec
    dsimp only at hrec
    by_cases hk : ("reply", src, dst) ∈ acc.seen
    · rw [if_pos hk] at hrec; exact hacc rec hrec
    · rw [if_neg hk] at hrec
      dsimp only at hrec
      rcases List.mem_append.mp hrec with h1 | h1
      · exact hacc rec h1
      · rw [List.mem_singleton] at h1
        exact ⟨"reply", src, dst, srcLs, alookup lookup dst, "native_field", none,
          h1, Or.inl rfl, hsrc, normalizeTweetId_idem reply dst hr⟩

theorem quoteNativeStep_good (lookup : List (String × Int)) (src : String)
    (srcLs : Int) (quoted : Option String) (acc : ExtractAcc)
    (hsrc : normalizeTweetId (some src) = some src)
    (hacc : ∀ rec ∈ acc.records, GoodRecord rec) :
    ∀ rec ∈ (quoteNativeStep lookup src srcLs quoted acc).records, GoodRecord rec := by
  intro rec hrec
  unfold quoteNativeStep at hrec
  cases hr : normalizeTweetId quoted with
  | none => rw [hr] at hrec; exact hacc rec hrec
  | some dst =>
    rw [hr] at hrec
    dsimp only at hrec
    by_cases hself : dst = src
    · rw [if_pos hself] at hrec; exact hacc rec hrec
    · rw [if_neg hself] at hrec
      by_cases hk : ("quote", src, dst) ∈ acc.seen
      · rw [if_pos hk] at hrec; exact hacc rec hrec
      · rw [if_neg hk] at hrec
        dsimp only at hrec
        rcases List.mem_append.mp hrec with h1 | h1
        · exact hacc rec h1
        · rw [List.mem_singleton] at h1
          exact ⟨"quote", src, dst, srcLs, alookup lookup dst, "native_field", none,
            h1, Or.inr rfl, hsrc, normalizeTweetId_idem quoted dst hr⟩

theorem urlQuoteStep_good (lookup : List (String × Int)) (src : String)
    (srcLs : Int) (acc : ExtractAcc) (rawUrl : String)
    (hsrc : normalizeTweetId (some src) = some src)
    (hacc : ∀ rec ∈ acc.records, GoodRecord rec) :
    ∀ rec ∈ (urlQuoteStep lookup src srcLs acc rawUrl).records, GoodRecord rec := by
  intro rec hrec
  unfold urlQuoteStep at hrec
  dsimp only at hrec
  cases hr : extractStatusId (pyNormalizeUrl rawUrl) with
  | none => rw [hr] at hrec; exact hacc rec hrec
  | some dst =>
    rw [hr] at hrec
    dsimp only at hrec
    by_cases hself : dst = src
    · rw [if_pos hself] at hrec; exact hacc rec hrec
    · rw [if_neg hself] at hrec
      by_cases hk : ("quote", src, dst) ∈ acc.seen
      · rw [if_pos hk] at hrec; exact hacc rec hrec
      · rw [if_neg hk] at hrec
        dsimp only at hrec
        rcases List.mem_append.mp hrec with h1 | h1
        · exact hacc rec h1
        · rw [List.mem_singleton] at h1
          have hd := extractStatusId_digits _ _ hr
          exact ⟨"quote", src, dst, srcLs, alookup lookup dst, "url_extract",
            some (pyNormalizeUrl rawUrl), h1, Or.inr rfl, hsrc,
            normalizeTweetId_digits dst hd.1 hd.2⟩

theorem foldl_urlQuoteStep_good (lookup : List (String × Int)) (src : String)
    (srcLs : Int) (hsrc : normalizeTweetId (some src) = some src) :
    ∀ (urls : List String) (acc : ExtractAcc),
      (∀ rec ∈ acc.records, GoodRecord rec) →
      ∀ rec ∈ (urls.foldl (urlQuoteStep lookup src srcLs) acc).records,
        GoodRecord rec := by
  intro urls
  induction urls with
  | nil => intro acc hacc; exact hacc
  | cons u rest ih =>
    intro acc hacc
    rw [List.foldl_cons]
    exact ih _ (urlQuoteStep_good lookup src srcLs acc u hsrc hacc)

theorem extractRowEdges_good (lookup : List (String × Int)) (r : PostRow)
    (acc : ExtractAcc) (hid : normalizeTweetId (some r.id) = some r.id)
    (hacc : ∀ rec ∈ acc.records, GoodRecord rec) :
    ∀ rec ∈ (extractRowEdges lookup acc r).records, GoodRecord rec := by
  unfold extractRowEdges
  exact foldl_urlQuoteStep_good lookup r.id r.ls_index hid _ _
    (quoteNativeStep_good lookup r.id r.ls_index r.quoted_status_id _ hid
      (replyStep_good lookup r.id r.ls_index r.in_reply_to_status_id acc hid hacc))

theorem extract_fold_good (lookup : List (String × Int)) :
    ∀ (rows : List PostRow) (acc : ExtractAcc),
      (∀ r ∈ rows, normalizeTweetId (some r.id) = some r.id) →
      (∀ rec ∈ acc.records, GoodRecord rec) →
      ∀ rec ∈ ((rows.foldl (extractRowEdges lookup) acc).records), GoodRecord rec := by
  intro rows
  induction rows with
  | nil => intro acc _ hacc; exact hacc
  | cons r rest ih =>
    intro acc hids hacc
    rw [List.foldl_cons]
    exact ih _ (fun r2 hr2 => hids r2 (List.mem_cons_of_mem r hr2))
      (extractRowEdges_good lookup r acc (hids r (List.mem_cons_self r rest)) hacc)

theorem prepareSourceRows_ids (rows : List InputRow) :
    ∀ r ∈ prepareSourceRows rows, normalizeTweetId (some r.id) = some r.id := by
  intro r hr
  unfold prepareSourceRows at hr
  simp only [List.mem_map, List.mem_filter] at hr
  obtain ⟨p, ⟨⟨hp1, _⟩, _⟩, hrp⟩ := hr
  obtain ⟨r0, hr0, hp⟩ := List.mem_filterMap.mp hp1
  cases hn : normalizeTweetId r0.id with
  | none => rw [hn] at hp; simp at hp
  | some nid =>
    rw [hn] at hp
    simp only [Option.some.injEq] at hp
    have hid : r.id = nid := by rw [← hrp, ← hp]
    rw [hid]
    exact normalizeTweetId_idem r0.id nid hn

theorem buildEdgesForSources_edge_id (rows : List PostRow)
    (lookup : List (String × Int))
    (hids : ∀ r ∈ rows, normalizeTweetId (some r.id) = some r.id) :
    ∀ e ∈ buildEdgesForSources rows lookup,
      e.edge_id = makeEdgeId e.src_tweet_id e.dst_tweet_id e.edge_kind e.provenance := by
  intro e he
  unfold buildEdgesForSources canonicalizeEdges at he
  have h2 := dedupKeepLast_subset _ _ he
  obtain ⟨rec, hrec, hrc⟩ := List.mem_filterMap.mp h2
  have hgood := extract_fold_good lookup rows { seen := [], records := [] } hids
    (by intro rec2 h; simp at h) rec hrec
  obtain ⟨kind, src, dst, srcLs, dstLs, prov, url, hrec_eq, hkind, hsrc, hdst⟩ := hgood
  subst hrec_eq
  rw [rowCanon_mkExtractedEdge kind src dst srcLs dstLs prov url hkind hsrc hdst] at hrc
  simp only [Option.some.injEq] at hrc
  rw [← hrc]

/-- `keep="last"` dedup: when the last row carrying a key ends the list
section, exactly that row survives for the key. -/
theorem dedupKeepLast_filter_last (l2 : List Edge) (e : Edge)
    (hpost : ∀ x ∈ l2, edgeKey x ≠ edgeKey e) :
    ∀ l1, (dedupKeepLast (l1 ++ e :: l2)).filter
      (fun x => edgeKey x = edgeKey e) = [e] := by
  intro l1
  induction l1 with
  | nil =>
    unfold dedupKeepLast
    have hany : l2.any (fun e2 => edgeKey e2 = edgeKey e) = false := by
      rw [List.any_eq_false]
      intro x hx
      simpa using hpost x hx
    simp only [List.nil_append]
    rw [if_neg (by rw [hany]; simp)]
    rw [List.filter_cons]
    simp only [decide_eq_true_eq]
    rw [if_pos trivial]
    have hrest : (dedupKeepLast l2).filter (fun x => edgeKey x = edgeKey e) = [] := by
      rw [List.filter_eq_nil]
      intro x hx
      simpa using hpost x (dedupKeepLast_subset l2 x hx)
    rw [hrest]
  | cons a l1' ih =>
    show (dedupKeepLast (a :: (l1' ++ e :: l2))).filter
      (fun x => edgeKey x = edgeKey e) = [e]
    unfold dedupKeepLast
    by_cases hc : (l1' ++ e :: l2).any (fun e2 => edgeKey e2 = edgeKey a)
    · rw [if_pos hc]
      exact ih
    · rw [if_neg hc]
      have hka : edgeKey a ≠ edgeKey e := by
        intro hk
        apply hc
        rw [List.any_eq_true]
        exact ⟨e, by simp, by simp [hk]⟩
      rw [List.filter_cons]
      simp only [decide_eq_true_eq]
      rw [if_neg hka]
      exact ih

/-- The source's trailing-slash trim agrees with the claim's phrasing
("one trailing slash removed unless the path is `/`"). -/
theorem path_trim_eq (path : String) :
    (if path.data.length > 1 && pyEndsWith path "/" then (⟨path.data.dropLast⟩ : String)
     else path) =
    (if path ≠ "/" ∧ pyEndsWith path "/" then strDropRight path 1 else path) := by
  by_cases hE : pyEndsWith path "/" = true
  · have hne : path.data ≠ [] := by
      intro hnil
      unfold pyEndsWith at hE
      rw [hnil] at hE
      simp [listStartsWith] at hE
    by_cases hlen : 1 < path.data.length
    · have hslash : path ≠ "/" := by
        intro hp
        rw [hp] at hlen
        simp at hlen
      rw [if_pos (show (path.data.length > 1 && pyEndsWith path "/") = true by
          rw [hE]
          simpa using hlen),
        if_pos (show path ≠ "/" ∧ pyEndsWith path "/" = true from ⟨hslash, hE⟩)]
      unfold strDropRight
      congr 1
      rw [List.dropLast_eq_take]
    · have hp : path = "/" := by
        have h1 : path.data.length = 1 := by
          cases hd : path.data with
          | nil => exact absurd hd hne
          | cons c rest =>
            cases rest with
            | nil => simp
            | cons c2 rest2 => rw [hd] at hlen; simp at hlen
        obtain ⟨c, hc⟩ := List.length_eq_one.mp h1
        unfold pyEndsWith at hE
        rw [hc] at hE
        simp only [List.reverse_singleton] at hE
        simp [listStartsWith] at hE
        subst hE
        cases path with
        | mk d =>
          simp only at hc
          rw [hc]
      rw [hp]
      decide
  · have hE' : pyEndsWith path "/" = false := by
      revert hE
      cases pyEndsWith path "/" <;> simp
    rw [if_neg (show ¬((path.data.length > 1 && pyEndsWith path "/") = true) by
        simp [hE']),
      if_neg (show ¬(path ≠ "/" ∧ pyEndsWith path "/" = true) by simp [hE'])]

theorem selectEdges_not_requested (sourceRows : List PostRow)
    (lookup : List (String × Int)) (changedNorm : List String)
    (prior : Option (List RawEdge)) :
    selectEdges sourceRows lookup changedNorm false prior =
      (buildEdgesForSources sourceRows lookup, false, false) := by
  unfold selectEdges
  cases prior with
  | none => rfl
  | some raw => simp

/-- **C8** — Idempotence of full rebuild: a full (non-incremental) rebuild
is a deterministic function of the loaded input alone — running it twice
(even against different leftover prior artifacts, which it ignores)
yields identical results, in particular identical `edge_id` lists and
row counts; and each output edge's `edge_id` is exactly
`_make_edge_id(src_id, dst_id, kind, provenance)` of that edge's own
fields. -/
theorem full_rebuild_idempotent (rows : List InputRow) (scope : Bool)
    (changed : List (Option String)) (prior1 prior2 : Option (List RawEdge)) :
    buildLinksCore rows scope false changed prior1 =
      buildLinksCore rows scope false changed prior2 ∧
    ((buildLinksCore rows scope false changed prior1).map
        (fun r => r.edges.map (fun e => e.edge_id))) =
      ((buildLinksCore rows scope false changed prior2).map
        (fun r => r.edges.map (fun e => e.edge_id))) ∧
    ((buildLinksCore rows scope false changed prior1).map
        (fun r => r.edges.length)) =
      ((buildLinksCore rows scope false changed prior2).map
        (fun r => r.edges.length)) ∧
    ∀ result, buildLinksCore rows scope false changed prior1 = some result →
      ∀ e ∈ result.edges,
        e.edge_id = makeEdgeId e.src_tweet_id e.dst_tweet_id e.edge_kind e.provenance := by
  have hfalse : (false && !((changed.filterMap normalizeTweetId).dedup).isEmpty &&
      !scope) = false := by simp
  have heq : buildLinksCore rows scope false changed prior1 =
      buildLinksCore rows scope false changed prior2 := by
    unfold buildLinksCore
    dsimp only
    rw [hfalse, selectEdges_not_requested, selectEdges_not_requested]
  refine ⟨heq, by rw [heq], by rw [heq], ?_⟩
  intro result hres e he
  obtain ⟨hedge, _⟩ :=
    buildLinksCore_some_elim rows scope false changed prior1 result hres
  rw [hfalse, selectEdges_not_requested] at hedge
  rw [hedge] at he
  unfold finalizeEdges at he
  obtain ⟨hm2, _⟩ := List.mem_filter.mp he
  unfold refreshEdgeTargets at hm2
  obtain ⟨e0, he0, hre⟩ := List.mem_map.mp hm2
  have hE := buildEdgesForSources_edge_id (prepareSourceRows rows)
    (buildTweetLookup (prepareSourceRows rows)) (prepareSourceRows_ids rows) e0 he0
  subst hre
  exact hE

/-- Witness for C8 on the concrete linear-thread build. -/
theorem full_rebuild_idempotent_witness :
    ∃ result, buildLinksCore chainRows false false [] none = some result ∧
      ∀ e ∈ result.edges,
        e.edge_id = makeEdgeId e.src_tweet_id e.dst_tweet_id e.edge_kind e.provenance := by
  have hs := buildLinksCore_isSome chainRows false false [] none
  cases hb : buildLinksCore chainRows false false [] none with
  | none => rw [hb] at hs; simp at hs
  | some result =>
    exact ⟨result, rfl,
      (full_rebuild_idempotent chainRows false [] none (some [])).2.2.2 result hb⟩

theorem foldl_urlQuoteStep_self (lookup : List (String × Int)) (src : String)
    (srcLs : Int) :
    ∀ (urls : List String) (acc : ExtractAcc),
      (∀ u ∈ urls, ∀ s, extractStatusId (pyNormalizeUrl u) = some s → s = src) →
      urls.foldl (urlQuoteStep lookup src srcLs) acc = acc := by
  intro urls
  induction urls with
  | nil => intro acc _; rfl
  | cons u rest ih =>
    intro acc hself
    rw [List.foldl_cons]
    have hstep : urlQuoteStep lookup src srcLs acc u = acc := by
      unfold urlQuoteStep
      dsimp only
      cases hr : extractStatusId (pyNormalizeUrl u) with
      | none => rfl
      | some s =>
        dsimp only
        rw [if_pos (hself u (by simp) s hr)]
    rw [hstep]
    exact ih acc (fun u2 hu2 => hself u2 (List.mem_cons_of_mem u hu2))

/-- **C10** — Self-loop suppression is asymmetric: a source post whose
normalized `in_reply_to_status_id` equals its own id still yields a
reply edge with `src_tweet_id = dst_tweet_id` (a self-loop), while a
native `quoted_status_id` equal to the post's own id, or URLs whose
extracted status ids equal the post's own id, never yield a quote edge. -/
theorem self_loop_asymmetry (r : PostRow) (lookup : List (String × Int))
    (hid : normalizeTweetId (some r.id) = some r.id)
    (hreply : normalizeTweetId r.in_reply_to_status_id = some r.id)
    (hquote : ∀ s, normalizeTweetId r.quoted_status_id = some s → s = r.id)
    (hurls : ∀ u ∈ parseUrls r.urls_json, ∀ s,
      extractStatusId (pyNormalizeUrl u) = some s → s = r.id) :
    (∃ e ∈ buildEdgesForSources [r] lookup,
      e.edge_kind = "reply" ∧ e.src_tweet_id = r.id ∧ e.dst_tweet_id = r.id) ∧
    ∀ e ∈ buildEdgesForSources [r] lookup, e.edge_kind ≠ "quote" := by
  have hreplyStep : replyStep lookup r.id r.ls_index r.in_reply_to_status_id
      { seen := [], records := [] } =
      { seen := [("reply", r.id, r.id)],
        records := [mkExtractedEdge "reply" r.id r.id r.ls_index
          (alookup lookup r.id) "native_field" none] } := by
    unfold replyStep
    rw [hreply]
    dsimp only
    rw [if_neg (by simp)]
    simp
  have hacc1 : ∀ acc : ExtractAcc,
      quoteNativeStep lookup r.id r.ls_index r.quoted_status_id acc = acc := by
    intro acc
    unfold quoteNativeStep
    cases hq : normalizeTweetId r.quoted_status_id with
    | none => rfl
    | some s =>
      dsimp only
      rw [if_pos (hquote s hq)]
  have hbuild : buildEdgesForSources [r] lookup =
      [{ edge_id := makeEdgeId r.id r.id "reply" "native_field",
         edge_kind := "reply", src_tweet_id := r.id, dst_tweet_id := r.id,
         src_ls_index := some r.ls_index, dst_ls_index := alookup lookup r.id,
         internal_target := (alookup lookup r.id).isSome,
         provenance := "native_field", source_url := none }] := by
    unfold buildEdgesForSources
    rw [List.foldl_cons, List.foldl_nil]
    unfold extractRowEdges
    dsimp only
    rw [hreplyStep, hacc1, foldl_urlQuoteStep_self lookup r.id r.ls_index _ _ hurls]
    unfold canonicalizeEdges
    have hE := rowCanon_mkExtractedEdge "reply" r.id r.id r.ls_index
      (alookup lookup r.id) "native_field" none (Or.inl rfl) hid hid
    simp [List.filterMap_cons, hE, dedupKeepLast]
  constructor
  · rw [hbuild]
    exact ⟨_, List.mem_singleton.mpr rfl, rfl, rfl, rfl⟩
  · intro e he
    rw [hbuild, List.mem_singleton] at he
    subst he
    simp

/-- Witness for C10 on a concrete post referencing itself on all three
dimensions. -/
theorem self_loop_asymmetry_witness :
    (∃ e ∈ buildEdgesForSources [selfLoopRow] [],
      e.edge_kind = "reply" ∧ e.src_tweet_id = selfLoopRow.id ∧
      e.dst_tweet_id = selfLoopRow.id) ∧
    ∀ e ∈ buildEdgesForSources [selfLoopRow] [], e.edge_kind ≠ "quote" :=
  self_loop_asymmetry selfLoopRow [] (by decide) (by decide)
    (by decide) (by decide)

/-- **C6** — Output-edge validity invariant: every row of the edges table
written by any build has `edge_kind ∈ {reply, quote}`, non-empty
`src_tweet_id` and `dst_tweet_id`, `dst_ls_index` null exactly when
`internal_target` is false, and a `src_tweet_id` that is the id of a
post present in the loaded corpus. -/
theorem output_edges_valid (rows : List InputRow)
    (scopeRestricted incremental : Bool) (changed : List (Option String))
    (prior : Option (List RawEdge)) (result : BuildResult)
    (h : buildLinksCore rows scopeRestricted incremental changed prior = some result) :
    ∀ e ∈ result.edges,
      (e.edge_kind = "reply" ∨ e.edge_kind = "quote") ∧
      e.src_tweet_id ≠ "" ∧ e.dst_tweet_id ≠ "" ∧
      (e.dst_ls_index = none ↔ e.internal_target = false) ∧
      (alookup (buildTweetLookup (prepareSourceRows rows)) e.src_tweet_id).isSome ∧
      ∃ r ∈ prepareSourceRows rows, r.id = e.src_tweet_id := by
  obtain ⟨he, _⟩ :=
    buildLinksCore_some_elim rows scopeRestricted incremental changed prior result h
  intro e hmem
  rw [he] at hmem
  unfold finalizeEdges at hmem
  obtain ⟨hmem2, hsrc⟩ := List.mem_filter.mp hmem
  unfold refreshEdgeTargets at hmem2
  obtain ⟨e0, he0, hre⟩ := List.mem_map.mp hmem2
  have hv := selectEdges_valid _ _ _ _ _ e0 he0
  subst hre
  have hsrc' : (alookup (buildTweetLookup (prepareSourceRows rows))
      e0.src_tweet_id).isSome := by simpa using hsrc
  refine ⟨hv.1, hv.2.1, hv.2.2, ?_, hsrc', buildTweetLookup_mem_rows _ _ hsrc'⟩
  dsimp only
  cases alookup (buildTweetLookup (prepareSourceRows rows)) e0.dst_tweet_id <;> simp

/-- Witness for C6 on the concrete linear-thread build. -/
theorem output_edges_valid_witness :
    ∃ result, buildLinksCore chainRows false false [] none = some result ∧
      ∀ e ∈ result.edges,
        (e.edge_kind = "reply" ∨ e.edge_kind = "quote") ∧
        e.src_tweet_id ≠ "" ∧ e.dst_tweet_id ≠ "" ∧
        (e.dst_ls_index = none ↔ e.internal_target = false) ∧
        (alookup (buildTweetLookup (prepareSourceRows chainRows)) e.src_tweet_id).isSome ∧
        ∃ r ∈ prepareSourceRows chainRows, r.id = e.src_tweet_id := by
  have hs := buildLinksCore_isSome chainRows false false [] none
  cases hb : buildLinksCore chainRows false false [] none with
  | none => rw [hb] at hs; simp at hs
  | some result =>
    exact ⟨result, rfl, output_edges_valid chainRows false false [] none result hb⟩

/-- **C5** — Canonicalization dedup keeps the last occurrence: when the
canonicalizer receives two candidate edge rows with identical
`(kind, src_id, dst_id)` (after row canonicalization) but different raw
`edge_id` values, and no later row carries that key, exactly one stored
edge with that key survives in the output: the later row's, by insertion
order. -/
theorem canonicalization_dedup_keeps_last (pre mid post : List RawEdge)
    (a b : RawEdge) (ea eb : Edge) (hid : a.edge_id ≠ b.edge_id)
    (ha : rowCanon a = some ea) (hb : rowCanon b = some eb)
    (hkey : edgeKey ea = edgeKey eb)
    (hpost : ∀ x ∈ post, ∀ ex, rowCanon x = some ex → edgeKey ex ≠ edgeKey eb) :
    (canonicalizeEdges (pre ++ a :: mid ++ b :: post)).filter
      (fun x => edgeKey x = edgeKey eb) = [eb] := by
  unfold canonicalizeEdges
  have h1 : List.filterMap rowCanon (pre ++ a :: mid ++ b :: post) =
      (List.filterMap rowCanon pre ++ ea :: List.filterMap rowCanon mid) ++
        eb :: List.filterMap rowCanon post := by
    simp [List.filterMap_append, List.filterMap_cons, ha, hb]
  rw [h1]
  apply dedupKeepLast_filter_last
  intro x hx
  obtain ⟨raw, hraw, hrc⟩ := List.mem_filterMap.mp hx
  exact hpost raw hraw x hrc

/-- Witness for C5 on two concrete duplicate-key rows. -/
theorem canonicalization_dedup_keeps_last_witness :
    (canonicalizeEdges ([] ++ dupRawA :: [] ++ dupRawB :: [])).filter
      (fun x => edgeKey x = edgeKey dupEdgeB) = [dupEdgeB] :=
  canonicalization_dedup_keeps_last [] [] [] dupRawA dupRawB dupEdgeA dupEdgeB
    (by decide) (by decide) (by decide) (by decide)
    (by intro x hx; simp at hx)

/-- **C9** (amended) — URL normalization contract: for every URL string,
`_normalize_url` returns the URL with scheme lower-cased and defaulting
to `https`, host lower-cased with **every occurrence of the substring
`"www."` removed**, one trailing slash removed from the path unless the
path is `/`, and query and fragment dropped; when the splitter cannot
parse the input (a raised `ValueError`), the original string is
returned unchanged. -/
theorem url_normalization_contract (url : String) :
    pyNormalizeUrl url = normalizeUrlAmended url := by
  unfold pyNormalizeUrl normalizeUrlAmended
  cases pyUrlsplit url with
  | none => rfl
  | some split =>
    dsimp only
    rw [path_trim_eq split.path]

/-- **C9** counterexample — the claim as stated (only a *leading* `www.`
stripped) fails: on `"https://awww.example.com/x"` the code removes the
inner `"www."` and returns `"https://aexample.com/x"`, while the claim
prescribes the host unchanged. -/
theorem url_normalization_leading_www_counterexample :
    pyNormalizeUrl "https://awww.example.com/x" = "https://aexample.com/x" ∧
    normalizeUrlClaim "https://awww.example.com/x" = "https://awww.example.com/x" ∧
    pyNormalizeUrl "https://awww.example.com/x" ≠
      normalizeUrlClaim "https://awww.example.com/x" :=
  ⟨by decide, by decide, by decide⟩

/-- Witness for C3 on the concrete linear-thread build. -/
theorem node_stats_thread_size_consistent_witness :
    ∃ result, buildLinksCore chainRows false false [] none = some result ∧
      ∀ row ∈ result.nodeStats,
        row.thread_size =
          ((result.nodeStats.filter
            (fun n => n.thread_root_id = row.thread_root_id)).length : Int) ∧
        1 ≤ row.thread_size ∧
        (result.nodeStats.filter (fun n => n.tweet_id = row.tweet_id)).length = 1 := by
  have hs := buildLinksCore_isSome chainRows false false [] none
  cases hb : buildLinksCore chainRows false false [] none with
  | none => rw [hb] at hs; simp at hs
  | some result =>
    exact ⟨result, rfl,
      node_stats_thread_size_consistent chainRows false false [] none result hb⟩

/-- **C4** — Thread-depth characterization, corrected.  The claim's
"depth is 0 iff the root is the post itself or an out-of-corpus post" is
refuted by the external-parent case (see the counterexample): a post
whose parent is outside the corpus gets that parent as root and depth 1.
What holds, on inputs whose in-corpus reply chains do not cycle, is:
depth is 0 exactly when the resolved root is the post itself; a post
with no (or empty) parent resolves to itself at depth 0; a post with an
out-of-corpus parent resolves to that parent at depth 1; and a post
with an in-corpus parent gets its parent's root and its parent's depth
plus one. -/
theorem thread_depth_characterization (corpus : List String)
    (pm : List (String × String)) (hacyc : AcyclicParents corpus pm) :
    ∃ results, computeThreadMetadata corpus pm = some results ∧
      ∀ tid root depth, alookup results tid = some (root, depth) →
        (depth = 0 ↔ root = tid) ∧
        (pEff pm tid = none → root = tid ∧ depth = 0) ∧
        (∀ p, pEff pm tid = some p → p ∉ corpus → root = p ∧ depth = 1) ∧
        (∀ p, pEff pm tid = some p → p ∈ corpus →
          ∃ rootP depthP, alookup results p = some (rootP, depthP) ∧
            root = rootP ∧ depth = depthP + 1) := by
  have hs := computeThreadMetadata_isSome corpus pm
  cases hres : computeThreadMetadata corpus pm with
  | none => rw [hres] at hs; simp at hs
  | some results =>
    exact ⟨results, rfl, fun tid root depth hlook =>
      computeThreadMetadata_char corpus pm hacyc results hres tid root depth hlook⟩

theorem thread_depth_characterization_witness :
    AcyclicParents ["1", "2"] [("2", "1")] ∧
    (∃ results, computeThreadMetadata ["1", "2"] [("2", "1")] = some results ∧
      ∀ tid root depth, alookup results tid = some (root, depth) →
        (depth = 0 ↔ root = tid) ∧
        (pEff [("2", "1")] tid = none → root = tid ∧ depth = 0) ∧
        (∀ p, pEff [("2", "1")] tid = some p → p ∉ ["1", "2"] →
          root = p ∧ depth = 1) ∧
        (∀ p, pEff [("2", "1")] tid = some p → p ∈ ["1", "2"] →
          ∃ rootP depthP, alookup results p = some (rootP, depthP) ∧
            root = rootP ∧ depth = depthP + 1)) :=
  ⟨by unfold AcyclicParents; decide,
   thread_depth_characterization ["1", "2"] [("2", "1")]
     (by unfold AcyclicParents; decide)⟩

/-- A post whose reply parent exists but is out of corpus resolves to
that parent with depth 1, so its depth is nonzero even though its root
is an out-of-corpus post: the claimed equivalence fails. -/
theorem thread_depth_external_parent_counterexample :
    computeThreadMetadata ["X"] [("X", "P")] = some [("X", ("P", 1))] ∧
    ¬((1 : Int) = 0 ↔ ("P" = "X" ∨ "P" ∉ ["X"])) := by
  constructor
  · decide
  · decide

end BuildLinks
